import Mathlib

/-!
# Verification of the git-adr core engine

A shallow embedding of the git-adr decision-record engine: the record data
model with YAML-frontmatter (de)serialization (`src/core/adr.rs`), the
notes-backed CRUD store with its numeric-ID allocator and sync logic
(`src/core/notes.rs`), the derived search index (`src/core/index.rs`) and
the template engine (`src/core/templates.rs`).

Rust strings are modelled as `List Char` (UTF-8 byte order on Rust `str`
coincides with code-point order, so lexicographic comparison agrees).
The external collaborators (the git subprocess adapter, the serde_yaml
codec, the chrono date parser and the tera template engine) are modelled
at the value level, faithful to the documented contracts the core relies
on; everything in `src/core` itself is translated directly.
-/

set_option maxRecDepth 8000

namespace GitAdr

/-- Strings of the modelled program, as lists of characters. -/
abbrev Str := List Char

/-- Association-list lookup by key, first match wins (models map lookup and
`git notes show` on a per-commit note store). -/
def lookupKV {α : Type} : Str → List (Str × α) → Option α
  | _, [] => none
  | k, (k2, v) :: t => if k2 = k then some v else lookupKV k t

/-- Insert-or-replace for an association list (models `HashMap::insert`). -/
def insertKV {α : Type} : List (Str × α) → Str → α → List (Str × α)
  | [], k, v => [(k, v)]
  | (k2, v2) :: t, k, v => if k2 = k then (k, v) :: t else (k2, v2) :: insertKV t k v

/-- Models Rust `str::starts_with`. -/
def prefixOfB : Str → Str → Bool
  | [], _ => true
  | _ :: _, [] => false
  | a :: as, b :: bs => if a = b then prefixOfB as bs else false

/-- Models Rust `str::strip_prefix`. -/
def stripPfx : Str → Str → Option Str
  | [], s => some s
  | _ :: _, [] => none
  | a :: as, b :: bs => if a = b then stripPfx as bs else none

/-- Leading-whitespace trim (one side of Rust `str::trim`). -/
def ltrimStr (s : Str) : Str := s.dropWhile Char.isWhitespace

/-- Trailing-whitespace trim (the other side of Rust `str::trim`). -/
def rtrimStr (s : Str) : Str := ((s.reverse).dropWhile Char.isWhitespace).reverse

/-- Models Rust `str::trim` (both ends). -/
def trimStr (s : Str) : Str := ltrimStr (rtrimStr s)

/-- Index of the first occurrence of `pat` in `s`; models Rust `str::find`. -/
def substrIdx : Str → Str → Option Nat
  | s, pat =>
    if prefixOfB pat s then some 0
    else
      match s with
      | [] => none
      | _ :: t => (substrIdx t pat).map (· + 1)

/-- Models Rust `str::contains`. -/
def containsSubB (s pat : Str) : Bool := (substrIdx s pat).isSome

/-- Split on a separator character; models the line/field splitting the
YAML text layer performs.  Always returns at least one chunk. -/
def splitOnChar (c : Char) : Str → List Str
  | [] => [[]]
  | d :: t =>
    if d = c then [] :: splitOnChar c t
    else
      match splitOnChar c t with
      | [] => [[d]]
      | h :: r => (d :: h) :: r

/-- Decimal digit value of a character, if any. -/
def digitVal (c : Char) : Option Nat :=
  if '0' ≤ c ∧ c ≤ '9' then some (c.toNat - '0'.toNat) else none

/-- Fold decimal digits into a value; fails on any non-digit. -/
def digitsVal : Nat → Str → Option Nat
  | acc, [] => some acc
  | acc, c :: t =>
    match digitVal c with
    | none => none
    | some d => digitsVal (acc * 10 + d) t

/-- Parse a non-empty all-digit string as a natural number. -/
def parseDigits (s : Str) : Option Nat :=
  if s = [] then none else digitsVal 0 s

/-- Models Rust `str::parse::<u32>`: optional leading `+`, then digits,
rejecting values that overflow `u32`. -/
def parseU32 (s : Str) : Option Nat :=
  let t := match s with
    | '+' :: r => r
    | _ => s
  (parseDigits t).bind (fun n => if n < 4294967296 then some n else none)

/-- Decimal digit character for a value below ten. -/
def dChar : Nat → Char
  | 0 => '0'
  | 1 => '1'
  | 2 => '2'
  | 3 => '3'
  | 4 => '4'
  | 5 => '5'
  | 6 => '6'
  | 7 => '7'
  | 8 => '8'
  | 9 => '9'
  | _ => '?'

/-- Fuelled decimal printer (most significant digit first). -/
def natToStrAux : Nat → Nat → Str
  | 0, _ => []
  | fuel + 1, n => if n = 0 then [] else natToStrAux fuel (n / 10) ++ [dChar (n % 10)]

/-- Decimal rendering of a natural number; models Rust integer `Display`. -/
def natToStr (n : Nat) : Str := if n = 0 then ['0'] else natToStrAux (n + 1) n

/-- Left-pad with `'0'` to width `w`; models the `{:0width$}` format. -/
def padNum (w : Nat) (s : Str) : Str := List.replicate (w - s.length) '0' ++ s

/-- Strict lexicographic comparison of strings (Rust `str::cmp` is
byte-lexicographic, which agrees with code-point order under UTF-8). -/
def strLtB : Str → Str → Bool
  | [], [] => false
  | [], _ :: _ => true
  | _ :: _, [] => false
  | a :: as, b :: bs => if a < b then true else if b < a then false else strLtB as bs

/-- First element satisfying a Boolean predicate; models `Iterator::find`. -/
def findFirst {α : Type} (p : α → Bool) : List α → Option α
  | [] => none
  | a :: t => if p a then some a else findFirst p t

/-- Join strings with a separator; models `[String]::join`. -/
def joinSep (sep : Str) : List Str → Str
  | [] => []
  | [x] => x
  | x :: xs => x ++ sep ++ joinSep sep xs

/-- ASCII-style lowercasing, character by character; models
`str::to_lowercase` on the inputs the engine exchanges. -/
def toLowerStr (s : Str) : Str := s.map Char.toLower

/-- Boolean membership of a string in a list of strings. -/
def elemStr (k : Str) : List Str → Bool
  | [] => false
  | x :: t => if x = k then true else elemStr k t

/-- `Option`-valued map over a list, failing if any element fails. -/
def mapOpt {α β : Type} (f : α → Option β) : List α → Option (List β)
  | [] => some []
  | a :: l =>
    match f a with
    | none => none
    | some b => (mapOpt f l).map (b :: ·)

/-! ## The YAML value layer

Modelled from the spec: the serde_yaml codec is an external library
("parses the interior as a structured key/value block", section 4.1; the
emitted block's formatting is explicitly not part of the contract).  It is
modelled at the value level over the shapes this engine exchanges:
scalars, sequences of scalars, and sequences of string-keyed scalar maps
(links); the open extension map carries these same value shapes.  The
emitter always terminates lines with a newline and never produces a line
starting with `---`, the two textual facts `Adr::parse_frontmatter`
relies on. -/

/-- YAML values exchanged by the frontmatter codec. -/
inductive YVal where
  /-- A string scalar. -/
  | scalar (s : Str)
  /-- A sequence of string scalars. -/
  | seqStr (items : List Str)
  /-- A sequence of maps from string keys to string scalars. -/
  | seqMap (items : List (List (Str × Str)))
deriving DecidableEq, Repr

/-- Escape a character for a double-quoted scalar. -/
def escChar (c : Char) : Str :=
  if c = '"' then ['\\', '"']
  else if c = '\\' then ['\\', '\\']
  else if c = '\n' then ['\\', 'n']
  else [c]

/-- Escape a string for a double-quoted scalar. -/
def escStr : Str → Str
  | [] => []
  | c :: t => escChar c ++ escStr t

/-- Unescape a character after a backslash. -/
def unescChar (c : Char) : Char := if c = 'n' then '\n' else c

/-- Emit a double-quoted scalar. -/
def emitQ (s : Str) : Str := '"' :: escStr s ++ ['"']

/-- Emit the interior of a flow map of string scalars. -/
def emitKVs : List (Str × Str) → Str
  | [] => []
  | [(k, v)] => emitQ k ++ ':' :: emitQ v
  | (k, v) :: t => emitQ k ++ ':' :: emitQ v ++ ',' :: emitKVs t

/-- Emit the interior of a flow sequence of scalars. -/
def emitSeqStr : List Str → Str
  | [] => []
  | [x] => emitQ x
  | x :: t => emitQ x ++ ',' :: emitSeqStr t

/-- Emit the interior of a flow sequence of maps. -/
def emitSeqMap : List (List (Str × Str)) → Str
  | [] => []
  | [m] => '{' :: emitKVs m ++ ['}']
  | m :: t => '{' :: emitKVs m ++ '}' :: ',' :: emitSeqMap t

/-- Emit a YAML value in flow style. -/
def emitVal : YVal → Str
  | .scalar s => emitQ s
  | .seqStr items => '[' :: emitSeqStr items ++ [']']
  | .seqMap items => '[' :: emitSeqMap items ++ [']']

/-- Read a double-quoted scalar after the opening quote, returning the
unescaped contents and the rest of the input. -/
def scanQuoted : Str → Option (Str × Str)
  | [] => none
  | c :: rest =>
    if c = '"' then some ([], rest)
    else if c = '\\' then
      match rest with
      | [] => none
      | d :: rest2 => (scanQuoted rest2).map (fun p => (unescChar d :: p.1, p.2))
    else (scanQuoted rest).map (fun p => (c :: p.1, p.2))

/-- Fuelled reader for the interior of a flow map (after `{`), up to and
consuming the closing `}`. -/
def parseKVs : Nat → Str → Option (List (Str × Str) × Str)
  | 0, _ => none
  | fuel + 1, s =>
    match s with
    | '"' :: t =>
      (scanQuoted t).bind (fun kp =>
        match kp.2 with
        | ':' :: '"' :: r =>
          (scanQuoted r).bind (fun vp =>
            match vp.2 with
            | ',' :: r2 => (parseKVs fuel r2).map (fun q => ((kp.1, vp.1) :: q.1, q.2))
            | '}' :: r2 => some ([(kp.1, vp.1)], r2)
            | _ => none)
        | _ => none)
    | _ => none

/-- Fuelled reader for a non-empty flow sequence of scalars (after `[`),
up to and consuming the closing `]`. -/
def parseQItems : Nat → Str → Option (List Str × Str)
  | 0, _ => none
  | fuel + 1, s =>
    match s with
    | '"' :: t =>
      (scanQuoted t).bind (fun ip =>
        match ip.2 with
        | ',' :: r2 => (parseQItems fuel r2).map (fun q => (ip.1 :: q.1, q.2))
        | ']' :: r2 => some ([ip.1], r2)
        | _ => none)
    | _ => none

/-- Fuelled reader for a non-empty flow sequence of maps (after `[`),
up to and consuming the closing `]`. -/
def parseMItems : Nat → Str → Option (List (List (Str × Str)) × Str)
  | 0, _ => none
  | fuel + 1, s =>
    match s with
    | '{' :: t =>
      (parseKVs (t.length + 1) t).bind (fun mp =>
        match mp.2 with
        | ',' :: r2 => (parseMItems fuel r2).map (fun q => (mp.1 :: q.1, q.2))
        | ']' :: r2 => some ([mp.1], r2)
        | _ => none)
    | _ => none

/-- Read one flow-style YAML value, returning it and the rest of the
input.  An empty sequence reads canonically as an empty scalar sequence. -/
def parseVal (s : Str) : Option (YVal × Str) :=
  match s with
  | '"' :: t => (scanQuoted t).map (fun p => (YVal.scalar p.1, p.2))
  | '[' :: ']' :: t => some (YVal.seqStr [], t)
  | '[' :: '"' :: t =>
    (parseQItems (t.length + 1) ('"' :: t)).map (fun p => (YVal.seqStr p.1, p.2))
  | '[' :: '{' :: t =>
    (parseMItems (t.length + 1) ('{' :: t)).map (fun p => (YVal.seqMap p.1, p.2))
  | _ => none

/-- Emit one `key: value` line of the frontmatter block (no newline). -/
def emitLine (e : Str × YVal) : Str := emitQ e.1 ++ ':' :: emitVal e.2

/-- Emit the frontmatter block: one line per entry, each line terminated
by a newline (serde_yaml always ends its output with a newline). -/
def yamlEmit (es : List (Str × YVal)) : Str :=
  (es.map emitLine).foldr (fun l acc => l ++ '\n' :: acc) []

/-- Read one `key: value` line back. -/
def parseLine (s : Str) : Option (Str × YVal) :=
  match s with
  | '"' :: t =>
    (scanQuoted t).bind (fun kp =>
      match kp.2 with
      | ':' :: r =>
        (parseVal r).bind (fun vp => if vp.2 = [] then some (kp.1, vp.1) else none)
      | _ => none)
  | _ => none

/-- Read a frontmatter block back into its entries.  Blank lines are
ignored; duplicate mapping keys are rejected, as the YAML parser rejects
duplicate keys in a mapping. -/
def yamlFromStr (s : Str) : Option (List (Str × YVal)) :=
  (mapOpt parseLine ((splitOnChar '\n' s).filter (fun l => !l.isEmpty))).bind
    (fun es => if (es.map Prod.fst).Nodup then some es else none)

/-- Decidable equality for `Except`, for evaluating concrete results. -/
instance exceptDecEq {ε α : Type} [DecidableEq ε] [DecidableEq α] :
    DecidableEq (Except ε α) := fun x y =>
  match x, y with
  | .ok a, .ok b =>
    if h : a = b then isTrue (by rw [h]) else isFalse (by simp [h])
  | .error a, .error b =>
    if h : a = b then isTrue (by rw [h]) else isFalse (by simp [h])
  | .ok _, .error _ => isFalse (by simp)
  | .error _, .ok _ => isFalse (by simp)

/-! ## Error taxonomy (`src/lib.rs`, the variants the core raises) -/

/-- The error variants of the core engine. -/
inductive Error where
  /-- `Error::AdrNotFound { id }`. -/
  | adrNotFound (id : Str)
  /-- `Error::ParseError { message }`. -/
  | parseError (message : Str)
  /-- `Error::TemplateError { message }`. -/
  | templateError (message : Str)
  /-- `Error::TemplateNotFound { name }`. -/
  | templateNotFound (name : Str)
  /-- `Error::Git { .. }`, collapsed to its message. -/
  | gitError (message : Str)
deriving DecidableEq, Repr

/-! ## Record model (`src/core/adr.rs`) -/

/-- ADR status (`AdrStatus`), default `proposed`. -/
inductive AdrStatus where
  /-- Proposed (default). -/
  | proposed
  /-- Accepted. -/
  | accepted
  /-- Deprecated. -/
  | deprecated
  /-- Superseded. -/
  | superseded
  /-- Rejected. -/
  | rejected
deriving DecidableEq, Repr

/-- `Display` for `AdrStatus`. -/
def statusStr : AdrStatus → Str
  | .proposed => "proposed".toList
  | .accepted => "accepted".toList
  | .deprecated => "deprecated".toList
  | .superseded => "superseded".toList
  | .rejected => "rejected".toList

/-- Serde deserialization of `AdrStatus` (`rename_all = "lowercase"`,
exact lowercase names). -/
def statusFromScalar (s : Str) : Option AdrStatus :=
  if s = "proposed".toList then some .proposed
  else if s = "accepted".toList then some .accepted
  else if s = "deprecated".toList then some .deprecated
  else if s = "superseded".toList then some .superseded
  else if s = "rejected".toList then some .rejected
  else none

/-- `FromStr` for `AdrStatus`: case-insensitive (used by CLI callers). -/
def statusFromStr (s : Str) : Except Error AdrStatus :=
  match statusFromScalar (toLowerStr s) with
  | some st => .ok st
  | none => .error (.parseError s)

/-- `FlexibleDate`: a `chrono::DateTime<Utc>` instant, modelled by its
calendar and clock components. -/
structure FlexibleDate where
  /-- Year. -/
  year : Nat
  /-- Month. -/
  month : Nat
  /-- Day of month. -/
  day : Nat
  /-- Hour. -/
  hour : Nat
  /-- Minute. -/
  minute : Nat
  /-- Second. -/
  second : Nat
deriving DecidableEq, Repr

/-- Serialization of `FlexibleDate`: the `%Y-%m-%d` date-only string. -/
def dateStr (d : FlexibleDate) : Str :=
  padNum 4 (natToStr d.year) ++ '-' :: padNum 2 (natToStr d.month)
    ++ '-' :: padNum 2 (natToStr d.day)

/-- The same instant at midnight (what a date-only round trip yields). -/
def FlexibleDate.atMidnight (d : FlexibleDate) : FlexibleDate :=
  ⟨d.year, d.month, d.day, 0, 0, 0⟩

/-- Modelled from the spec: `DateTime::parse_from_rfc3339` (chrono,
external library) on the `YYYY-MM-DDThh:mm:ssZ` shape; any input without
a single `T` separator is rejected, as chrono rejects date-only input
here. -/
def parseRFC3339 (s : Str) : Option FlexibleDate :=
  match splitOnChar 'T' s with
  | [d, t] =>
    match splitOnChar '-' d, splitOnChar ':' t with
    | [y, mo, da], [h, mi, sec] =>
      match sec.reverse with
      | 'Z' :: secDigitsRev =>
        match parseDigits y, parseDigits mo, parseDigits da,
            parseDigits h, parseDigits mi, parseDigits secDigitsRev.reverse with
        | some yv, some mov, some dav, some hv, some miv, some sv =>
          some ⟨yv, mov, dav, hv, miv, sv⟩
        | _, _, _, _, _, _ => none
      | _ => none
    | _, _ => none
  | _ => none

/-- Modelled from the spec: `NaiveDate::parse_from_str(s, "%Y-%m-%d")`
(chrono, external library) followed by midnight, the second branch of
`FlexibleDate`'s deserializer. -/
def parseDateOnly (s : Str) : Option FlexibleDate :=
  match splitOnChar '-' s with
  | [y, mo, da] =>
    match parseDigits y, parseDigits mo, parseDigits da with
    | some yv, some mov, some dav => some ⟨yv, mov, dav, 0, 0, 0⟩
    | _, _, _ => none
  | _ => none

/-- Deserialization of `FlexibleDate`: RFC 3339 first, date-only second. -/
def parseFlexibleDate (s : Str) : Option FlexibleDate :=
  match parseRFC3339 s with
  | some d => some d
  | none => parseDateOnly s

/-- A typed relation to another record (`AdrLink`). -/
structure AdrLink where
  /-- The relation kind. -/
  rel : Str
  /-- The target record id. -/
  target : Str
deriving DecidableEq, Repr

/-- YAML frontmatter metadata (`AdrFrontmatter`), fields in declaration
order; `custom` is the flattened open extension map. -/
structure AdrFrontmatter where
  /-- Optional explicit id. -/
  id : Option Str
  /-- Title (required). -/
  title : Str
  /-- Status, defaulting to proposed. -/
  status : AdrStatus
  /-- Optional creation date. -/
  date : Option FlexibleDate
  /-- Tags (skipped when empty). -/
  tags : List Str
  /-- Authors (skipped when empty). -/
  authors : List Str
  /-- Deciders (skipped when empty). -/
  deciders : List Str
  /-- Links (skipped when empty). -/
  links : List AdrLink
  /-- Optional format name. -/
  format : Option Str
  /-- Optional id of the record this one supersedes. -/
  supersedes : Option Str
  /-- Optional id of the record superseding this one. -/
  superseded_by : Option Str
  /-- Open extension map, preserved verbatim. -/
  custom : List (Str × YVal)
deriving DecidableEq, Repr

/-- An Architecture Decision Record (`Adr`). -/
structure Adr where
  /-- Unique identifier (by convention `ADR-NNNN`). -/
  id : Str
  /-- The commit this record is attached to. -/
  commit : Str
  /-- Frontmatter metadata. -/
  frontmatter : AdrFrontmatter
  /-- Markdown body. -/
  body : Str
deriving DecidableEq, Repr

/-- An optional frontmatter entry (present or skipped). -/
def chunk (k : Str) : Option YVal → List (Str × YVal)
  | none => []
  | some v => [(k, v)]

/-- The fixed frontmatter field names, in struct declaration order. -/
def fixedNames : List Str :=
  ["id".toList, "title".toList, "status".toList, "date".toList, "tags".toList,
   "authors".toList, "deciders".toList, "links".toList, "format".toList,
   "supersedes".toList, "superseded_by".toList]

/-- Serde serialization of `AdrFrontmatter` to YAML entries: fields in
declaration order, optional fields and empty lists skipped
(`skip_serializing_if`), the flattened extension map last. -/
def fmToEntries (fm : AdrFrontmatter) : List (Str × YVal) :=
  chunk "id".toList (fm.id.map .scalar)
  ++ chunk "title".toList (some (.scalar fm.title))
  ++ chunk "status".toList (some (.scalar (statusStr fm.status)))
  ++ chunk "date".toList (fm.date.map (fun d => .scalar (dateStr d)))
  ++ chunk "tags".toList (if fm.tags = [] then none else some (.seqStr fm.tags))
  ++ chunk "authors".toList (if fm.authors = [] then none else some (.seqStr fm.authors))
  ++ chunk "deciders".toList (if fm.deciders = [] then none else some (.seqStr fm.deciders))
  ++ chunk "links".toList (if fm.links = [] then none
      else some (.seqMap (fm.links.map (fun l => [("rel".toList, l.rel), ("target".toList, l.target)]))))
  ++ chunk "format".toList (fm.format.map .scalar)
  ++ chunk "supersedes".toList (fm.supersedes.map .scalar)
  ++ chunk "superseded_by".toList (fm.superseded_by.map .scalar)
  ++ fm.custom

/-- Decode a scalar value. -/
def asScalar : YVal → Option Str
  | .scalar s => some s
  | _ => none

/-- Decode a `Vec<String>` value. -/
def asStrList : YVal → Option (List Str)
  | .seqStr l => some l
  | _ => none

/-- Decode one `AdrLink` map: `rel` and `target` must be present scalars;
extra keys are ignored, as serde ignores unknown struct fields. -/
def decodeLink (m : List (Str × Str)) : Option AdrLink :=
  match lookupKV "rel".toList m, lookupKV "target".toList m with
  | some r, some t => some ⟨r, t⟩
  | _, _ => none

/-- Decode a `Vec<AdrLink>` value. -/
def asLinks : YVal → Option (List AdrLink)
  | .seqStr [] => some []
  | .seqMap ms => mapOpt decodeLink ms
  | _ => none

/-- Decode an optional field: absent is fine, present must decode. -/
def optField {α : Type} (k : Str) (es : List (Str × YVal)) (f : YVal → Option α) :
    Option (Option α) :=
  match lookupKV k es with
  | none => some none
  | some v => (f v).map some

/-- Decode a defaulted field: absent yields the serde default. -/
def dfltField {α : Type} (k : Str) (es : List (Str × YVal)) (dflt : α)
    (f : YVal → Option α) : Option α :=
  match lookupKV k es with
  | none => some dflt
  | some v => f v

/-- Serde deserialization of `AdrFrontmatter` from YAML entries: `title`
is required, `status` defaults to proposed, optional fields may be
absent, list fields default to empty, and every key that is not a fixed
field name lands in the flattened extension map. -/
def fromEntries (es : List (Str × YVal)) : Option AdrFrontmatter :=
  (optField "id".toList es asScalar).bind (fun idv =>
  ((lookupKV "title".toList es).bind asScalar).bind (fun titlev =>
  (dfltField "status".toList es .proposed (fun v => (asScalar v).bind statusFromScalar)).bind (fun statusv =>
  (optField "date".toList es (fun v => (asScalar v).bind parseFlexibleDate)).bind (fun datev =>
  (dfltField "tags".toList es [] asStrList).bind (fun tagsv =>
  (dfltField "authors".toList es [] asStrList).bind (fun authorsv =>
  (dfltField "deciders".toList es [] asStrList).bind (fun decidersv =>
  (dfltField "links".toList es [] asLinks).bind (fun linksv =>
  (optField "format".toList es asScalar).bind (fun formatv =>
  (optField "supersedes".toList es asScalar).bind (fun supersedesv =>
  (optField "superseded_by".toList es asScalar).map (fun ssbv =>
    { id := idv, title := titlev, status := statusv, date := datev,
      tags := tagsv, authors := authorsv, deciders := decidersv,
      links := linksv, format := formatv, supersedes := supersedesv,
      superseded_by := ssbv,
      custom := es.filter (fun e => !elemStr e.1 fixedNames) })))))))))))

/-- The message of the missing-opening-delimiter parse error. -/
def mustStartMsg : Str := "ADR must start with YAML frontmatter (---)".toList

/-- The message of the unclosed-delimiter parse error. -/
def unclosedMsg : Str := "YAML frontmatter must be closed with ---".toList

/-- The message prefix of the invalid-YAML parse error (the serde error
text that follows is external). -/
def invalidYamlMsg : Str := "Invalid YAML frontmatter: ".toList

/-- `Adr::parse_frontmatter`: trim, require the opening `---`, find the
first `\n---`, decode the interior, trim the remainder into the body. -/
def Adr.parseFrontmatter (content : Str) : Except Error (AdrFrontmatter × Str) :=
  let c := trimStr content
  if prefixOfB ['-', '-', '-'] c then
    let rest := c.drop 3
    match substrIdx rest ['\n', '-', '-', '-'] with
    | some pos =>
      let yamlContent := rest.take pos
      let body := trimStr (rest.drop (pos + 4))
      match (yamlFromStr yamlContent).bind fromEntries with
      | some fm => .ok (fm, body)
      | none => .error (.parseError invalidYamlMsg)
    | none => .error (.parseError unclosedMsg)
  else .error (.parseError mustStartMsg)

/-- `Adr::from_markdown`. -/
def Adr.fromMarkdown (id commit : Str) (content : Str) : Except Error Adr :=
  (Adr.parseFrontmatter content).map (fun p =>
    { id := id, commit := commit, frontmatter := p.1, body := p.2 })

/-- `Adr::to_markdown`: the opening delimiter, the emitted frontmatter
block, the closing delimiter, a blank line, then the body. -/
def Adr.toMarkdown (adr : Adr) : Str :=
  '-' :: '-' :: '-' :: '\n' :: yamlEmit (fmToEntries adr.frontmatter)
    ++ '-' :: '-' :: '-' :: '\n' :: '\n' :: adr.body

/-- `AdrFrontmatter::default`, with the ambient clock (`Utc::now()`)
passed in explicitly. -/
def AdrFrontmatter.dflt (now : FlexibleDate) : AdrFrontmatter :=
  { id := none, title := [], status := .proposed, date := some now,
    tags := [], authors := [], deciders := [], links := [],
    format := none, supersedes := none, superseded_by := none, custom := [] }

/-- `Adr::new`, with the ambient clock passed in explicitly. -/
def Adr.new (now : FlexibleDate) (id title : Str) : Adr :=
  { id := id, commit := [],
    frontmatter := { AdrFrontmatter.dflt now with id := some id, title := title },
    body := [] }

/-- `Adr::has_tag` (case-insensitive). -/
def Adr.hasTag (adr : Adr) (tag : Str) : Bool :=
  adr.frontmatter.tags.any (fun t => toLowerStr t = toLowerStr tag)

/-! ## Configuration (`src/core/config.rs`) -/

/-- `AdrConfig`.  The Rust field `prefix` is a Lean keyword and is named
`pfx` here. -/
structure AdrConfig where
  /-- Prefix for record ids (Rust field `prefix`, default `"ADR-"`). -/
  pfx : Str
  /-- Number of digits in a record id (default 4). -/
  digits : Nat
  /-- Default template name. -/
  template : Str
  /-- Default format. -/
  format : Str
  /-- Whether the repository is initialized. -/
  initialized : Bool
deriving DecidableEq, Repr

/-- `AdrConfig::default`. -/
def AdrConfig.dflt : AdrConfig :=
  { pfx := "ADR-".toList, digits := 4, template := "default".toList,
    format := "nygard".toList, initialized := false }

/-! ## The notes store (`src/core/notes.rs`)

The git adapter is external (`src/core/git.rs` shells out to git); the
records namespace is modelled as an association list from commit to note
content, with the adapter contracts the store relies on: `notes show` is
lookup, `notes add -f` overwrites the note of that commit, `notes remove`
deletes it, `notes list` enumerates one `(note object, commit)` pair per
annotated commit, and `rev-parse` facts (`head`, `short_hash`) are state
fields. -/

/-- The observable state of the repository the store runs against. -/
structure GitState where
  /-- The records namespace: one `(commit, content)` pair per note. -/
  adrNotes : List (Str × Str)
  /-- The commit `HEAD` resolves to. -/
  head : Str
  /-- `git rev-parse --short` as a function of the commit. -/
  short : Str → Str

/-- `git notes add -f`: unconditionally replace the note at `commit`. -/
def notesAdd (l : List (Str × Str)) (commit content : Str) : List (Str × Str) :=
  l.filter (fun p => decide (p.1 ≠ commit)) ++ [(commit, content)]

/-- `git notes remove`: drop the note at `commit`. -/
def notesRemove (l : List (Str × Str)) (commit : Str) : List (Str × Str) :=
  l.filter (fun p => decide (p.1 ≠ commit))

/-- At most one note per commit in the records namespace: the commit keys
are pairwise distinct (real git guarantees this shape by construction). -/
def keysNodup (st : GitState) : Prop := (st.adrNotes.map Prod.fst).Nodup

/-- Key distinctness is decidable, so fixtures can discharge it by
evaluation. -/
instance keysNodupDec (st : GitState) : Decidable (keysNodup st) :=
  inferInstanceAs (Decidable ((st.adrNotes.map Prod.fst).Nodup))

/-- `NotesManager::extract_id_from_frontmatter`: trim, check the opening
delimiter, take the interior before the first `\n---`, and read the
optional `id` key, swallowing every failure. -/
def extractIdFromFrontmatter (content : Str) : Option Str :=
  let c := trimStr content
  if prefixOfB ['-', '-', '-'] c then
    let rest := c.drop 3
    match substrIdx rest ['\n', '-', '-', '-'] with
    | some pos =>
      match yamlFromStr (rest.take pos) with
      | some es => (lookupKV "id".toList es).bind asScalar
      | none => none
    | none => none
  else none

/-- `NotesManager::extract_id`: the frontmatter `id` when present, else
the configured prefix followed by the commit's short hash. -/
def extractId (cfg : AdrConfig) (short : Str → Str) (content commit : Str) : Str :=
  match extractIdFromFrontmatter content with
  | some id => id
  | none => cfg.pfx ++ short commit

/-- Stable insertion into a list sorted by id. -/
def insertByIdLt (a : Adr) : List Adr → List Adr
  | [] => [a]
  | b :: bs => if strLtB a.id b.id then a :: b :: bs else b :: insertByIdLt a bs

/-- Sort records by id (`sort_by(|a, b| a.id.cmp(&b.id))`). -/
def sortByIdLt (l : List Adr) : List Adr := l.foldr insertByIdLt []

/-- Process one enumerated note for `list`: read its content, resolve an
id, and attempt the parse; `none` skips the entry. -/
def listEntry (st : GitState) (cfg : AdrConfig) (commit : Str) : Option Adr :=
  match lookupKV commit st.adrNotes with
  | none => none
  | some content =>
    match Adr.fromMarkdown (extractId cfg st.short content commit) commit content with
    | .ok adr => some adr
    | .error _ => none

/-- `NotesManager::list`: enumerate the records namespace, skip entries
that fail to parse, sort by id. -/
def NMlist (st : GitState) (cfg : AdrConfig) : List Adr :=
  sortByIdLt (st.adrNotes.filterMap (fun p => listEntry st cfg p.1))

/-- `NotesManager::get`: the first listed record whose id equals the
query, else `AdrNotFound`. -/
def NMget (st : GitState) (cfg : AdrConfig) (id : Str) : Except Error Adr :=
  match findFirst (fun adr => decide (adr.id = id)) (NMlist st cfg) with
  | some adr => .ok adr
  | none => .error (.adrNotFound id)

/-- `NotesManager::get_by_commit`: a direct single-note read. -/
def NMgetByCommit (st : GitState) (cfg : AdrConfig) (commit : Str) : Except Error Adr :=
  match lookupKV commit st.adrNotes with
  | none => .error (.adrNotFound commit)
  | some content => Adr.fromMarkdown (extractId cfg st.short content commit) commit content

/-- `NotesManager::create`: target the record's commit, or `HEAD` when it
is empty, and overwrite whatever note is there. -/
def NMcreate (st : GitState) (adr : Adr) : GitState :=
  let commit := if adr.commit = [] then st.head else adr.commit
  { st with adrNotes := notesAdd st.adrNotes commit adr.toMarkdown }

/-- `NotesManager::update`: verify a record with this id exists, then
overwrite the note at the record's commit. -/
def NMupdate (st : GitState) (cfg : AdrConfig) (adr : Adr) : Except Error GitState :=
  match NMget st cfg adr.id with
  | .error e => .error e
  | .ok _ => .ok { st with adrNotes := notesAdd st.adrNotes adr.commit adr.toMarkdown }

/-- `NotesManager::delete`: resolve the record by id, then remove the
note at its commit. -/
def NMdelete (st : GitState) (cfg : AdrConfig) (id : Str) : Except Error GitState :=
  match NMget st cfg id with
  | .error e => .error e
  | .ok adr => .ok { st with adrNotes := notesRemove st.adrNotes adr.commit }

/-- The numeric suffix of a record id: strip the configured prefix and
parse the remainder as a `u32`. -/
def numSuffix (cfg : AdrConfig) (adr : Adr) : Option Nat :=
  (stripPfx cfg.pfx adr.id).bind parseU32

/-- `NotesManager::next_number`: one plus the maximum numeric suffix over
all listed records (`max().unwrap_or(0) + 1`), computed in `u32` - the
increment wraps modulo `2^32` (release-profile overflow semantics; a
debug build panics at the same state). -/
def nextNumber (st : GitState) (cfg : AdrConfig) : Nat :=
  (((NMlist st cfg).filterMap (numSuffix cfg)).foldr Nat.max 0 + 1) % 4294967296

/-- `NotesManager::format_id`: the prefix followed by the number
zero-padded to the configured digit width. -/
def formatId (cfg : AdrConfig) (number : Nat) : Str :=
  cfg.pfx ++ padNum cfg.digits (natToStr number)

/-! ### Sync (`NotesManager::sync`)

The remote's behaviour is external; a `SyncEnv` records the outcome each
adapter call would have (`none` is success), and the model additionally
returns the trace of adapter calls actually performed, so that "the
artifacts push is not attempted" is expressible. -/

/-- Outcomes of the four possible adapter calls of one `sync`. -/
structure SyncEnv where
  /-- Outcome of fetching the records namespace. -/
  fetchAdr : Option Error
  /-- Outcome of fetching the artifacts namespace. -/
  fetchArt : Option Error
  /-- Outcome of pushing the records namespace. -/
  pushAdr : Option Error
  /-- Outcome of pushing the artifacts namespace. -/
  pushArt : Option Error
deriving Repr

/-- The adapter calls `sync` can perform. -/
inductive SyncOp where
  /-- Fetch of the records namespace. -/
  | fetchAdrOp
  /-- Fetch of the artifacts namespace. -/
  | fetchArtOp
  /-- Push of the records namespace. -/
  | pushAdrOp
  /-- Push of the artifacts namespace. -/
  | pushArtOp
deriving DecidableEq, Repr

/-- `NotesManager::sync`: fetch outcomes on both namespaces are ignored;
a records-push failure returns immediately; the artifacts-push outcome is
ignored. -/
def NMsync (env : SyncEnv) (remote : Str) (push fetch : Bool) :
    Except Error Unit × List SyncOp :=
  let _ := remote
  let ops1 := if fetch then [SyncOp.fetchAdrOp, SyncOp.fetchArtOp] else []
  if push then
    match env.pushAdr with
    | some e => (.error e, ops1 ++ [SyncOp.pushAdrOp])
    | none => (.ok (), ops1 ++ [SyncOp.pushAdrOp, SyncOp.pushArtOp])
  else (.ok (), ops1)

/-! ## The search index (`src/core/index.rs`) -/

/-- A search index entry (`IndexEntry`). -/
structure IndexEntry where
  /-- Record id. -/
  id : Str
  /-- Commit hash. -/
  commit : Str
  /-- Record title. -/
  title : Str
  /-- Status text. -/
  status : Str
  /-- Tags. -/
  tags : List Str
  /-- Lowercased aggregate text for substring search. -/
  text : Str
deriving DecidableEq, Repr

/-- `IndexEntry::from_adr`: the aggregate text is the lowercased
`"{title} {tags joined by spaces} {body}"`. -/
def IndexEntry.fromAdr (adr : Adr) : IndexEntry :=
  { id := adr.id, commit := adr.commit, title := adr.frontmatter.title,
    status := statusStr adr.frontmatter.status, tags := adr.frontmatter.tags,
    text := toLowerStr (adr.frontmatter.title ++ ' ' ::
      joinSep [' '] adr.frontmatter.tags ++ ' ' :: adr.body) }

/-- `IndexEntry::matches`: case-insensitive substring match against the
aggregate text, the id, or the title. -/
def IndexEntry.matchesQ (e : IndexEntry) (query : Str) : Bool :=
  let q := toLowerStr query
  containsSubB e.text q || containsSubB (toLowerStr e.id) q
    || containsSubB (toLowerStr e.title) q

/-- The search index (`SearchIndex`): entries keyed by record id, plus a
format version. -/
structure SearchIndex where
  /-- Entries by record id. -/
  entries : List (Str × IndexEntry)
  /-- Index format version. -/
  version : Nat
deriving DecidableEq, Repr

/-- `SearchIndex::new`. -/
def SearchIndex.new : SearchIndex := { entries := [], version := 1 }

/-- `SearchIndex::upsert`: insert-or-replace keyed by the entry's id. -/
def SearchIndex.upsert (idx : SearchIndex) (e : IndexEntry) : SearchIndex :=
  { idx with entries := insertKV idx.entries e.id e }

/-- `SearchIndex::remove`. -/
def SearchIndex.removeId (idx : SearchIndex) (id : Str) : SearchIndex :=
  { idx with entries := idx.entries.filter (fun p => decide (p.1 ≠ id)) }

/-- `SearchIndex::search`: every entry matching the query. -/
def SearchIndex.search (idx : SearchIndex) (query : Str) : List IndexEntry :=
  (idx.entries.map Prod.snd).filter (fun e => e.matchesQ query)

/-- `IndexManager::rebuild`: recompute the index wholesale by upserting
an entry for every listed record into a fresh index (the result is then
persisted as one blob on the anchor commit through the adapter). -/
def IMrebuild (st : GitState) (cfg : AdrConfig) : SearchIndex :=
  (NMlist st cfg).foldl (fun idx adr => idx.upsert (IndexEntry.fromAdr adr)) SearchIndex.new

/-! ## The template engine (`src/core/templates.rs`)

The tera rendering engine is an external library; its registry is a
name-to-content map and its rendering is modelled from the spec as
"simple variable substitution" of `{{ key }}` placeholders (section 4.6);
the claims below depend only on the registry, not on the substitution). -/

/-- Built-in template `TEMPLATE_NYGARD`. -/
def templateNygard : Str :=
  ("# \x7b\x7b title \x7d\x7d\n\n## Status\n\n\x7b\x7b status \x7d\x7d\n\n## Context\n\n\x7b\x7b context | default(value=\"What is the issue that we\x27re seeing that is motivating this decision or change?\") \x7d\x7d\n\n## Decision\n\n\x7b\x7b decision | default(value=\"What is the change that we\x27re proposing and/or doing?\") \x7d\x7d\n\n## Consequences\n\n\x7b\x7b consequences | default(value=\"What becomes easier or more difficult to do because of this change?\") \x7d\x7d\n").toList

/-- Built-in template `TEMPLATE_MADR`. -/
def templateMadr : Str :=
  ("# \x7b\x7b title \x7d\x7d\n\n## Status\n\n\x7b\x7b status \x7d\x7d\n\n\x7b% if deciders %\x7d\nDeciders: \x7b\x7b deciders | join(sep=\", \") \x7d\x7d\n\x7b% endif %\x7d\n\x7b% if date %\x7d\nDate: \x7b\x7b date \x7d\x7d\n\x7b% endif %\x7d\n\n## Context and Problem Statement\n\n\x7b\x7b context | default(value=\"Describe the context and problem statement...\") \x7d\x7d\n\n## Decision Drivers\n\n\x7b% for driver in decision_drivers | default(value=[]) %\x7d\n* \x7b\x7b driver \x7d\x7d\n\x7b% else %\x7d\n* Driver 1\n* Driver 2\n\x7b% endfor %\x7d\n\n## Considered Options\n\n\x7b% for option in options | default(value=[]) %\x7d\n* \x7b\x7b option \x7d\x7d\n\x7b% else %\x7d\n* Option 1\n* Option 2\n\x7b% endfor %\x7d\n\n## Decision Outcome\n\nChosen option: \"\x7b\x7b chosen_option | default(value=\"Option X\") \x7d\x7d\"\n\n### Consequences\n\n#### Good\n\n\x7b% for item in good_consequences | default(value=[]) %\x7d\n* \x7b\x7b item \x7d\x7d\n\x7b% else %\x7d\n* Good consequence 1\n\x7b% endfor %\x7d\n\n#### Bad\n\n\x7b% for item in bad_consequences | default(value=[]) %\x7d\n* \x7b\x7b item \x7d\x7d\n\x7b% else %\x7d\n* Bad consequence 1\n\x7b% endfor %\x7d\n\n## More Information\n\n\x7b\x7b more_info | default(value=\"Additional information, links, references...\") \x7d\x7d\n").toList

/-- Built-in template `TEMPLATE_Y_STATEMENT`. -/
def templateYStatement : Str :=
  ("# \x7b\x7b title \x7d\x7d\n\n## Status\n\n\x7b\x7b status \x7d\x7d\n\n## Decision\n\nIn the context of \x7b\x7b context | default(value=\"<use case/user story>\") \x7d\x7d,\nfacing \x7b\x7b facing | default(value=\"<concern>\") \x7d\x7d,\nwe decided for \x7b\x7b decision | default(value=\"<option>\") \x7d\x7d\nand against \x7b\x7b against | default(value=\"<other options>\") \x7d\x7d,\nto achieve \x7b\x7b achieve | default(value=\"<quality>\") \x7d\x7d,\naccepting \x7b\x7b accepting | default(value=\"<downside>\") \x7d\x7d.\n").toList

/-- Built-in template `TEMPLATE_ALEXANDRIAN`. -/
def templateAlexandrian : Str :=
  ("# \x7b\x7b title \x7d\x7d\n\n## Status\n\n\x7b\x7b status \x7d\x7d\n\n## Prologue\n\n\x7b\x7b prologue | default(value=\"Summary and context for this ADR\") \x7d\x7d\n\n## Problem Statement\n\n\x7b\x7b problem | default(value=\"The problem or question being addressed\") \x7d\x7d\n\n## Forces\n\n\x7b% for force in forces | default(value=[]) %\x7d\n* \x7b\x7b force \x7d\x7d\n\x7b% else %\x7d\n* Force 1: Description\n* Force 2: Description\n\x7b% endfor %\x7d\n\n## Solution\n\n\x7b\x7b solution | default(value=\"The chosen solution\") \x7d\x7d\n\n## Consequences\n\n\x7b\x7b consequences | default(value=\"Resulting context after applying the solution\") \x7d\x7d\n\n## Related Patterns\n\n\x7b% for pattern in related | default(value=[]) %\x7d\n* \x7b\x7b pattern \x7d\x7d\n\x7b% endfor %\x7d\n").toList

/-- Built-in template `TEMPLATE_BUSINESS_CASE`. -/
def templateBusinessCase : Str :=
  ("# \x7b\x7b title \x7d\x7d\n\n## Status\n\n\x7b\x7b status \x7d\x7d\n\n## Executive Summary\n\n\x7b\x7b executive_summary | default(value=\"Brief overview of the decision and its impact\") \x7d\x7d\n\n## Background\n\n\x7b\x7b background | default(value=\"Context and history leading to this decision\") \x7d\x7d\n\n## Problem Statement\n\n\x7b\x7b problem | default(value=\"The business problem being addressed\") \x7d\x7d\n\n## Proposed Solution\n\n\x7b\x7b solution | default(value=\"Recommended approach\") \x7d\x7d\n\n## Alternatives Considered\n\n\x7b% for alt in alternatives | default(value=[]) %\x7d\n### \x7b\x7b alt.name \x7d\x7d\n\x7b\x7b alt.description \x7d\x7d\n\x7b% else %\x7d\n### Alternative 1\nDescription of alternative approach\n\x7b% endfor %\x7d\n\n## Cost-Benefit Analysis\n\n### Costs\n\x7b% for cost in costs | default(value=[]) %\x7d\n* \x7b\x7b cost \x7d\x7d\n\x7b% else %\x7d\n* Implementation cost\n* Maintenance cost\n\x7b% endfor %\x7d\n\n### Benefits\n\x7b% for benefit in benefits | default(value=[]) %\x7d\n* \x7b\x7b benefit \x7d\x7d\n\x7b% else %\x7d\n* Benefit 1\n* Benefit 2\n\x7b% endfor %\x7d\n\n## Risk Assessment\n\n\x7b% for risk in risks | default(value=[]) %\x7d\n* \x7b\x7b risk \x7d\x7d\n\x7b% else %\x7d\n* Risk 1: Mitigation strategy\n\x7b% endfor %\x7d\n\n## Implementation Plan\n\n\x7b\x7b implementation | default(value=\"High-level implementation approach\") \x7d\x7d\n\n## Success Metrics\n\n\x7b% for metric in metrics | default(value=[]) %\x7d\n* \x7b\x7b metric \x7d\x7d\n\x7b% else %\x7d\n* Metric 1\n\x7b% endfor %\x7d\n").toList

/-- Fuelled replace-all of a pattern by a replacement. -/
def replaceAllAux : Nat → Str → Str → Str → Str
  | 0, _, _, s => s
  | fuel + 1, pat, rep, s =>
    match substrIdx s pat with
    | none => s
    | some i => s.take i ++ rep ++ replaceAllAux fuel pat rep (s.drop (i + pat.length))

/-- Replace every occurrence of `pat` by `rep`. -/
def replaceAll (pat rep s : Str) : Str :=
  if pat = [] then s else replaceAllAux (s.length + 1) pat rep s

/-- Modelled from the spec: tera rendering (external library) as simple
variable substitution of each context key into its placeholder. -/
def teraRender (t : Str) (ctx : List (Str × Str)) : Str :=
  ctx.foldl (fun acc kv =>
    replaceAll ("\x7b\x7b ".toList ++ kv.1 ++ " \x7d\x7d".toList) kv.2 acc) t

/-- The template engine: the tera registry of named templates. -/
structure TemplateEngine where
  /-- Registered templates, name to content. -/
  templates : List (Str × Str)

/-- `TemplateEngine::new`: the five built-in templates. -/
def TemplateEngine.new : TemplateEngine :=
  { templates :=
      [("nygard".toList, templateNygard), ("madr".toList, templateMadr),
       ("y-statement".toList, templateYStatement),
       ("alexandrian".toList, templateAlexandrian),
       ("business-case".toList, templateBusinessCase)] }

/-- `TemplateEngine::add_template` (tera re-registration replaces; the
external syntax validation is not modelled). -/
def TemplateEngine.addTemplate (eng : TemplateEngine) (name content : Str) :
    TemplateEngine :=
  { templates := insertKV eng.templates name content }

/-- `TemplateEngine::has_template`. -/
def TemplateEngine.hasTemplate (eng : TemplateEngine) (name : Str) : Bool :=
  (lookupKV name eng.templates).isSome

/-- The message of a failed render (`"Failed to render template"` and the
name; the trailing tera error text is external). -/
def renderErrMsg (name : Str) : Str :=
  "Failed to render template ".toList ++ name

/-- `TemplateEngine::render`: build the context, render through tera, and
map any tera failure - including an unknown template name - to
`Error::TemplateError`. -/
def TemplateEngine.render (eng : TemplateEngine) (name : Str)
    (ctx : List (Str × Str)) : Except Error Str :=
  match lookupKV name eng.templates with
  | none => .error (.templateError (renderErrMsg name))
  | some t => .ok (teraRender t ctx)

/-- `TemplateEngine::get_template`: built-in names only; anything else is
`Error::TemplateNotFound`. -/
def TemplateEngine.getTemplate (name : Str) : Except Error Str :=
  if name = "nygard".toList then .ok templateNygard
  else if name = "madr".toList then .ok templateMadr
  else if name = "y-statement".toList then .ok templateYStatement
  else if name = "alexandrian".toList then .ok templateAlexandrian
  else if name = "business-case".toList then .ok templateBusinessCase
  else .error (.templateNotFound name)

/-! ## Lemmas: searching and sorting -/

/-- A successful `findFirst` splits the list at the first hit. -/
theorem findFirst_eq_some {α : Type} {p : α → Bool} {l : List α} {a : α}
    (h : findFirst p l = some a) :
    p a = true ∧ ∃ pre post, l = pre ++ a :: post ∧ ∀ b ∈ pre, p b = false := by
  induction l with
  | nil => simp [findFirst] at h
  | cons x t ih =>
    cases hx : p x with
    | true =>
      rw [findFirst, hx, if_pos rfl] at h
      cases h
      exact ⟨hx, [], t, rfl, by simp⟩
    | false =>
      rw [findFirst, hx] at h
      simp only [Bool.false_eq_true, if_false] at h
      obtain ⟨hpa, pre, post, rfl, hpre⟩ := ih h
      refine ⟨hpa, x :: pre, post, rfl, ?_⟩
      intro b hb
      rcases List.mem_cons.mp hb with rfl | hb
      · exact hx
      · exact hpre b hb

/-- `findFirst` fails exactly when nothing satisfies the predicate. -/
theorem findFirst_eq_none {α : Type} {p : α → Bool} {l : List α} :
    findFirst p l = none ↔ ∀ b ∈ l, p b = false := by
  induction l with
  | nil => simp [findFirst]
  | cons x t ih =>
    cases hx : p x with
    | true => simp [findFirst, hx]
    | false =>
      rw [findFirst, hx]
      simp only [Bool.false_eq_true, if_false, ih, List.mem_cons]
      constructor
      · intro h b hb
        rcases hb with rfl | hb
        · exact hx
        · exact h b hb
      · intro h b hb
        exact h b (Or.inr hb)

/-- Strict string comparison is transitive. -/
theorem strLtB_trans : ∀ {a b c : Str},
    strLtB a b = true → strLtB b c = true → strLtB a c = true
  | [], [], _, h, _ => by simp [strLtB] at h
  | [], _ :: _, [], _, h => by simp [strLtB] at h
  | [], _ :: _, _ :: _, _, _ => by simp [strLtB]
  | _ :: _, [], _, h, _ => by simp [strLtB] at h
  | _ :: _, _ :: _, [], _, h => by simp [strLtB] at h
  | a :: as, b :: bs, c :: cs, h1, h2 => by
    simp only [strLtB] at h1 h2 ⊢
    rcases lt_trichotomy a b with hab | hab | hab
    · rcases lt_trichotomy b c with hbc | hbc | hbc
      · simp [lt_trans hab hbc]
      · subst hbc; simp [hab]
      · rw [if_neg (asymm hbc), if_pos hbc] at h2; exact absurd h2 (by simp)
    · subst hab
      rw [if_neg (lt_irrefl a), if_neg (lt_irrefl a)] at h1
      rcases lt_trichotomy a c with hac | hac | hac
      · simp [hac]
      · subst hac
        rw [if_neg (lt_irrefl a), if_neg (lt_irrefl a)] at h2 ⊢
        exact strLtB_trans h1 h2
      · rw [if_neg (asymm hac), if_pos hac] at h2; exact absurd h2 (by simp)
    · rw [if_neg (asymm hab), if_pos hab] at h1; exact absurd h1 (by simp)

/-- Strict string comparison is asymmetric. -/
theorem strLtB_asymm : ∀ {a b : Str}, strLtB a b = true → strLtB b a = false
  | [], [], h => by simp [strLtB] at h
  | [], _ :: _, _ => by simp [strLtB]
  | _ :: _, [], h => by simp [strLtB] at h
  | a :: as, b :: bs, h => by
    simp only [strLtB] at h ⊢
    rcases lt_trichotomy a b with hab | hab | hab
    · simp [asymm hab, hab]
    · subst hab
      rw [if_neg (lt_irrefl a), if_neg (lt_irrefl a)] at h ⊢
      exact strLtB_asymm h
    · rw [if_neg (asymm hab), if_pos hab] at h; exact absurd h (by simp)

/-- If neither string precedes the other, they are equal. -/
theorem strLtB_antisymm : ∀ {a b : Str}, strLtB a b = false → strLtB b a = false → a = b
  | [], [], _, _ => rfl
  | [], _ :: _, h, _ => by simp [strLtB] at h
  | _ :: _, [], _, h => by simp [strLtB] at h
  | a :: as, b :: bs, h1, h2 => by
    simp only [strLtB] at h1 h2
    rcases lt_trichotomy a b with hab | hab | hab
    · rw [if_pos hab] at h1; exact absurd h1 (by simp)
    · subst hab
      rw [if_neg (lt_irrefl a), if_neg (lt_irrefl a)] at h1 h2
      rw [strLtB_antisymm h1 h2]
    · rw [if_neg (asymm hab), if_pos hab] at h2; exact absurd h2 (by simp)

/-- Non-strict string comparison (`¬ b < a`) is transitive. -/
theorem strLeB_trans {a b c : Str} (h1 : strLtB b a = false) (h2 : strLtB c b = false) :
    strLtB c a = false := by
  cases hca : strLtB c a with
  | false => rfl
  | true =>
    cases hab : strLtB a b with
    | false =>
      have : a = b := strLtB_antisymm hab h1
      subst this
      rw [hca] at h2
      exact absurd h2 (by simp)
    | true =>
      have : strLtB c b = true := strLtB_trans hca hab
      rw [this] at h2
      exact absurd h2 (by simp)

/-- Non-decreasing id order between two records. -/
def idLe (a b : Adr) : Prop := strLtB b.id a.id = false

/-- Inserting into the sorted prefix is a permutation of consing. -/
theorem insertByIdLt_perm (a : Adr) : ∀ l : List Adr, List.Perm (insertByIdLt a l) (a :: l)
  | [] => by simp [insertByIdLt]
  | b :: bs => by
    rw [insertByIdLt]
    by_cases h : strLtB a.id b.id = true
    · rw [if_pos h]
    · rw [if_neg h]
      exact List.Perm.trans (List.Perm.cons b (insertByIdLt_perm a bs))
        (List.Perm.swap a b bs)

/-- Sorting is a permutation. -/
theorem sortByIdLt_perm : ∀ l : List Adr, List.Perm (sortByIdLt l) l
  | [] => List.Perm.refl _
  | a :: t => by
    rw [sortByIdLt, List.foldr_cons]
    exact List.Perm.trans (insertByIdLt_perm a _)
      (List.Perm.cons a (sortByIdLt_perm t))

/-- Sorted lists absorb an insertion. -/
theorem insertByIdLt_sorted (a : Adr) :
    ∀ {l : List Adr}, l.Pairwise idLe → (insertByIdLt a l).Pairwise idLe
  | [], _ => by simp [insertByIdLt, List.pairwise_singleton]
  | b :: bs, h => by
    rw [insertByIdLt]
    rcases List.pairwise_cons.mp h with ⟨hb, hbs⟩
    by_cases hab : strLtB a.id b.id = true
    · rw [if_pos hab]
      refine List.pairwise_cons.mpr ⟨?_, h⟩
      intro x hx
      rcases List.mem_cons.mp hx with rfl | hx
      · exact strLtB_asymm hab
      · exact strLeB_trans (strLtB_asymm hab) (hb x hx)
    · rw [if_neg hab]
      refine List.pairwise_cons.mpr ⟨?_, insertByIdLt_sorted a hbs⟩
      intro x hx
      have hx2 : x ∈ a :: bs := (insertByIdLt_perm a bs).mem_iff.mp hx
      rcases List.mem_cons.mp hx2 with rfl | hx2
      · show strLtB x.id b.id = false
        cases h2 : strLtB x.id b.id with
        | false => rfl
        | true => exact absurd h2 hab
      · exact hb x hx2

/-- The sort's output is sorted by id. -/
theorem sortByIdLt_sorted : ∀ l : List Adr, (sortByIdLt l).Pairwise idLe
  | [] => List.Pairwise.nil
  | a :: t => by
    rw [sortByIdLt, List.foldr_cons]
    exact insertByIdLt_sorted a (sortByIdLt_sorted t)

/-! ## Lemmas: fold-max arithmetic for the allocator -/

/-- `Nat.max` written out, so that `omega` can see through it. -/
theorem natMax_def2 (a b : Nat) : Nat.max a b = if a ≤ b then b else a := by
  by_cases h : a ≤ b
  · rw [if_pos h]
    exact Nat.max_eq_right h
  · rw [if_neg h]
    exact Nat.max_eq_left (Nat.le_of_not_le h)

/-- Every member is bounded by the max fold. -/
theorem le_foldrMax {k : Nat} : ∀ {l : List Nat}, k ∈ l → k ≤ l.foldr Nat.max 0
  | [], h => absurd h (List.not_mem_nil k)
  | a :: t, h => by
    rw [List.foldr_cons, natMax_def2]
    rcases List.mem_cons.mp h with rfl | h
    · split <;> omega
    · have := le_foldrMax h
      split <;> omega

/-- The max fold is a member or zero. -/
theorem foldrMax_mem_or_zero : ∀ l : List Nat,
    l.foldr Nat.max 0 ∈ l ∨ l.foldr Nat.max 0 = 0
  | [] => Or.inr rfl
  | a :: t => by
    rw [List.foldr_cons]
    rcases Nat.le_total a (t.foldr Nat.max 0) with h | h
    · have hm : Nat.max a (t.foldr Nat.max 0) = t.foldr Nat.max 0 := by
        rw [natMax_def2]; split <;> omega
      rw [hm]
      rcases foldrMax_mem_or_zero t with h2 | h2
      · exact Or.inl (List.mem_cons_of_mem a h2)
      · exact Or.inr h2
    · have hm : Nat.max a (t.foldr Nat.max 0) = a := by
        rw [natMax_def2]; split <;> omega
      rw [hm]
      exact Or.inl (List.mem_cons_self a t)

/-- The max fold over any initial value, split off. -/
theorem foldrMax_init : ∀ (l : List Nat) (x : Nat),
    l.foldr Nat.max x = Nat.max (l.foldr Nat.max 0) x
  | [], x => by
    rw [List.foldr_nil, List.foldr_nil, natMax_def2]
    split <;> omega
  | a :: t, x => by
    rw [List.foldr_cons, List.foldr_cons, foldrMax_init t x]
    simp only [natMax_def2]
    split_ifs <;> omega

/-- The max fold over an append. -/
theorem foldrMax_append (l1 l2 : List Nat) :
    (l1 ++ l2).foldr Nat.max 0 = Nat.max (l1.foldr Nat.max 0) (l2.foldr Nat.max 0) := by
  rw [List.foldr_append, foldrMax_init]

/-- The max fold is invariant under permutation. -/
theorem foldrMax_perm {l1 l2 : List Nat} (h : List.Perm l1 l2) :
    l1.foldr Nat.max 0 = l2.foldr Nat.max 0 := by
  induction h with
  | nil => rfl
  | cons x _ ih => simp only [List.foldr_cons, ih]
  | swap x y l =>
    simp only [List.foldr_cons, natMax_def2]
    split_ifs <;> omega
  | trans _ _ ih1 ih2 => rw [ih1, ih2]

/-! ## Lemmas: the note store primitives -/

/-- Looking up a present key in a key-distinct store. -/
theorem lookupKV_of_mem_nodup {α : Type} {l : List (Str × α)} {c : Str} {v : α}
    (hn : (l.map Prod.fst).Nodup) (hm : (c, v) ∈ l) : lookupKV c l = some v := by
  induction l with
  | nil => exact absurd hm (List.not_mem_nil _)
  | cons p t ih =>
    obtain ⟨k2, v2⟩ := p
    rw [List.map_cons, List.nodup_cons] at hn
    rcases List.mem_cons.mp hm with heq | hm2
    · cases heq
      rw [lookupKV, if_pos rfl]
    · rw [lookupKV]
      have hne : k2 ≠ c := by
        intro h
        subst h
        exact hn.1 (List.mem_map.mpr ⟨(k2, v), hm2, rfl⟩)
      rw [if_neg hne]
      exact ih hn.2 hm2

/-- Lookup after deleting the note of another commit. -/
theorem lookupKV_filter_ne {α : Type} (l : List (Str × α)) (k c : Str) :
    lookupKV c (l.filter (fun p => decide (p.1 ≠ k))) =
      if c = k then none else lookupKV c l := by
  induction l with
  | nil => simp [lookupKV]
  | cons p t ih =>
    obtain ⟨k2, v2⟩ := p
    by_cases hk : k2 = k
    · subst hk
      rw [List.filter_cons_of_neg (by simp)]
      rw [ih, lookupKV]
      by_cases hc : c = k2
      · subst hc; rw [if_pos rfl, if_pos rfl]
      · rw [if_neg hc, if_neg hc, if_neg (fun h => hc h.symm)]
    · rw [List.filter_cons_of_pos (by simpa using hk)]
      rw [lookupKV, lookupKV, ih]
      by_cases hc : k2 = c
      · subst hc
        rw [if_pos rfl, if_pos rfl, if_neg hk]
      · rw [if_neg hc, if_neg hc]

/-- Lookup at the commit just written by `notes add -f`. -/
theorem lookupKV_notesAdd_self (l : List (Str × Str)) (c v : Str) :
    lookupKV c (notesAdd l c v) = some v := by
  rw [notesAdd]
  induction l with
  | nil => simp [lookupKV]
  | cons p t ih =>
    obtain ⟨k2, v2⟩ := p
    by_cases hk : k2 = c
    · subst hk
      rw [List.filter_cons_of_neg (by simp)]
      exact ih
    · rw [List.filter_cons_of_pos (by simpa using hk), List.cons_append, lookupKV,
        if_neg hk]
      exact ih

/-- Lookup elsewhere is unchanged by `notes add -f`. -/
theorem lookupKV_notesAdd_ne (l : List (Str × Str)) {c c2 : Str} (v : Str)
    (h : c2 ≠ c) : lookupKV c2 (notesAdd l c v) = lookupKV c2 l := by
  rw [notesAdd]
  induction l with
  | nil => simp [lookupKV, Ne.symm h]
  | cons p t ih =>
    obtain ⟨k2, v2⟩ := p
    by_cases hk : k2 = c
    · subst hk
      rw [List.filter_cons_of_neg (by simp), lookupKV, if_neg (fun hx => h hx.symm), ih]
    · rw [List.filter_cons_of_pos (by simpa using hk), List.cons_append, lookupKV,
        lookupKV, ih]

/-- `notes add -f` keeps commit keys pairwise distinct. -/
theorem notesAdd_nodup {l : List (Str × Str)} (c v : Str)
    (h : (l.map Prod.fst).Nodup) : ((notesAdd l c v).map Prod.fst).Nodup := by
  rw [notesAdd, List.map_append]
  apply List.Nodup.append
  · exact (h.sublist (List.Sublist.map Prod.fst (List.filter_sublist l)))
  · simp
  · intro x hx hy
    simp only [List.map_cons, List.map_nil, List.mem_singleton] at hy
    subst hy
    rcases List.mem_map.mp hx with ⟨p, hp, rfl⟩
    have := List.of_mem_filter hp
    simp at this

/-- `notes remove` keeps commit keys pairwise distinct. -/
theorem notesRemove_nodup {l : List (Str × Str)} (c : Str)
    (h : (l.map Prod.fst).Nodup) : ((notesRemove l c).map Prod.fst).Nodup :=
  h.sublist (List.Sublist.map Prod.fst (List.filter_sublist l))

/-! ## Lemmas: characterizing `list` -/

/-- In a key-distinct store, processing the entry of a listed pair reads
that pair's content. -/
theorem listEntry_of_mem_nodup {st : GitState} {cfg : AdrConfig} {c v : Str}
    (hn : keysNodup st) (hm : (c, v) ∈ st.adrNotes) :
    listEntry st cfg c =
      match Adr.fromMarkdown (extractId cfg st.short v c) c v with
      | .ok adr => some adr
      | .error _ => none := by
  rw [listEntry, lookupKV_of_mem_nodup hn hm]

/-- Membership in `list`: exactly the notes whose content parses. -/
theorem mem_NMlist {st : GitState} {cfg : AdrConfig} {adr : Adr}
    (hn : keysNodup st) :
    adr ∈ NMlist st cfg ↔ ∃ p ∈ st.adrNotes,
      Adr.fromMarkdown (extractId cfg st.short p.2 p.1) p.1 p.2 = .ok adr := by
  rw [NMlist]
  rw [(sortByIdLt_perm _).mem_iff, List.mem_filterMap]
  constructor
  · rintro ⟨p, hp, he⟩
    obtain ⟨c, v⟩ := p
    rw [listEntry_of_mem_nodup hn hp] at he
    refine ⟨(c, v), hp, ?_⟩
    cases hparse : Adr.fromMarkdown (extractId cfg st.short v c) c v with
    | ok a => rw [hparse] at he; cases he; rfl
    | error e => rw [hparse] at he; cases he
  · rintro ⟨p, hp, he⟩
    obtain ⟨c, v⟩ := p
    refine ⟨(c, v), hp, ?_⟩
    rw [listEntry_of_mem_nodup hn hp, he]

/-- The ids of `list` output are sorted in non-decreasing lexicographic
order. -/
theorem NMlist_sorted (st : GitState) (cfg : AdrConfig) :
    (NMlist st cfg).Pairwise idLe := sortByIdLt_sorted _

/-! ## Concrete fixtures for witnesses and counterexamples -/

/-- Build a plain frontmatter with an explicit id and title. -/
def mkFm (idv title : Str) : AdrFrontmatter :=
  { id := some idv, title := title, status := .proposed, date := none,
    tags := [], authors := [], deciders := [], links := [], format := none,
    supersedes := none, superseded_by := none, custom := [] }

/-- Build a plain record. -/
def mkAdr (idv commit title body : Str) : Adr :=
  { id := idv, commit := commit, frontmatter := mkFm idv title, body := body }

/-- The default configuration fixture. -/
def cfgD : AdrConfig := AdrConfig.dflt

/-- A fixed short-hash function for fixtures. -/
def shortF : Str → Str := fun _ => "abcdef0".toList

/-- Fixture record `ADR-0001`. -/
def adrA : Adr :=
  mkAdr "ADR-0001".toList "c1".toList "Use PostgreSQL".toList "body one".toList

/-- Fixture store holding only `adrA`. -/
def stA : GitState :=
  { adrNotes := [("c1".toList, adrA.toMarkdown)], head := "c1".toList, short := shortF }

/-! ## C1: `get` resolution -/

/-- C1 (amended): `NotesManager::get(q)` returns the first record in the
sorted output of `list()` whose id is exactly equal to `q`, and returns
`AdrNotFound` exactly when no listed record's id equals `q`; substring
matches do not resolve. -/
theorem c1_get_exact_match (st : GitState) (cfg : AdrConfig) (q : Str) :
    (∀ a, NMget st cfg q = .ok a →
      a.id = q ∧ ∃ pre post, NMlist st cfg = pre ++ a :: post ∧
        ∀ b ∈ pre, b.id ≠ q) ∧
    (NMget st cfg q = .error (.adrNotFound q) ↔
      ∀ a ∈ NMlist st cfg, a.id ≠ q) := by
  constructor
  · intro a ha
    rw [NMget] at ha
    cases hf : findFirst (fun adr => decide (adr.id = q)) (NMlist st cfg) with
    | none => rw [hf] at ha; cases ha
    | some b =>
      rw [hf] at ha
      cases ha
      obtain ⟨hpa, pre, post, hsplit, hpre⟩ := findFirst_eq_some hf
      refine ⟨of_decide_eq_true hpa, pre, post, hsplit, ?_⟩
      intro b hb
      exact of_decide_eq_false (hpre b hb)
  · rw [NMget]
    cases hf : findFirst (fun adr => decide (adr.id = q)) (NMlist st cfg) with
    | none =>
      simp only [true_iff]
      intro a ha
      exact of_decide_eq_false (findFirst_eq_none.mp hf a ha)
    | some b =>
      constructor
      · intro h; cases h
      · intro h
        obtain ⟨hpb, _, _, _, _⟩ := findFirst_eq_some hf
        have hmem : b ∈ NMlist st cfg := by
          obtain ⟨_, pre, post, hsplit, _⟩ := findFirst_eq_some hf
          rw [hsplit]
          exact List.mem_append_right pre (List.mem_cons_self b post)
        exact absurd (of_decide_eq_true hpb) (h b hmem)

/-- C1 (counterexample): with the single record `ADR-0001` in the store,
the query `0001` is contained in that id, yet `get` returns
`AdrNotFound` - refuting the claimed substring matching. -/
theorem c1_counterexample :
    NMget stA cfgD "0001".toList = .error (.adrNotFound "0001".toList) ∧
    (NMlist stA cfgD).map (fun a => containsSubB a.id "0001".toList) = [true] := by
  constructor
  · decide
  · decide

/-- C1 (witness): the amended theorem applied to the fixture store at the
exact id `ADR-0001`, discharging the successful-`get` hypothesis by
evaluation. -/
theorem c1_witness :
    adrA.id = "ADR-0001".toList ∧ ∃ pre post,
      NMlist stA cfgD = pre ++ adrA :: post ∧ ∀ b ∈ pre, b.id ≠ "ADR-0001".toList :=
  (c1_get_exact_match stA cfgD ("ADR-0001".toList)).1 adrA (by decide)

/-! ## C9: `list` skips unparsable notes and sorts lexicographically -/

/-- Fixture store with one good record and one corrupt note. -/
def stMix : GitState :=
  { adrNotes := [("c2".toList, "this is not a record".toList),
                 ("c1".toList, adrA.toMarkdown)],
    head := "c1".toList, short := shortF }

/-- Fixture record with id `ADR-100` (beyond the digit width). -/
def adrL100 : Adr := mkAdr "ADR-100".toList "c1".toList "L100".toList "b".toList

/-- Fixture record with id `ADR-99` (beyond the digit width). -/
def adrL99 : Adr := mkAdr "ADR-99".toList "c2".toList "L99".toList "b".toList

/-- Fixture store where lexicographic and numeric id order disagree. -/
def stLex : GitState :=
  { adrNotes := [("c2".toList, adrL99.toMarkdown), ("c1".toList, adrL100.toMarkdown)],
    head := "c1".toList, short := shortF }

/-- C9 (confirmed): in a key-distinct store, `list()` returns a record
for exactly those notes whose content parses as a record - unparsable
notes are skipped, never an error - and the output is sorted by id under
plain lexicographic comparison.  Concretely: a corrupt note does not
block listing the good one, and ids beyond the digit width sort
lexicographically (`ADR-100` before `ADR-99`), not numerically. -/
theorem c9_list_skips_and_sorts :
    (∀ st cfg, keysNodup st →
      ((∀ adr, adr ∈ NMlist st cfg ↔ ∃ p ∈ st.adrNotes,
          Adr.fromMarkdown (extractId cfg st.short p.2 p.1) p.1 p.2 = .ok adr) ∧
        (NMlist st cfg).Pairwise idLe)) ∧
    (NMlist stMix cfgD).map (fun a => a.id) = ["ADR-0001".toList] ∧
    (NMlist stLex cfgD).map (fun a => a.id) = ["ADR-100".toList, "ADR-99".toList] := by
  refine ⟨?_, by decide, by decide⟩
  intro st cfg hn
  exact ⟨fun adr => mem_NMlist hn, NMlist_sorted st cfg⟩

/-- C9 (witness): the general part applied to the fixture store, its
key-distinctness discharged by evaluation. -/
theorem c9_witness :
    (∀ adr, adr ∈ NMlist stA cfgD ↔ ∃ p ∈ stA.adrNotes,
      Adr.fromMarkdown (extractId cfgD stA.short p.2 p.1) p.1 p.2 = .ok adr) ∧
    (NMlist stA cfgD).Pairwise idLe :=
  c9_list_skips_and_sorts.1 stA cfgD (by decide)

/-! ## C6 and C3: the numeric allocator -/

/-- Fixture record number 1. -/
def adrB1 : Adr := mkAdr "ADR-0001".toList "c1".toList "One".toList "b1".toList

/-- Fixture record number 2. -/
def adrB2 : Adr := mkAdr "ADR-0002".toList "c2".toList "Two".toList "b2".toList

/-- Fixture record number 3. -/
def adrB3 : Adr := mkAdr "ADR-0003".toList "c3".toList "Three".toList "b3".toList

/-- Fixture store holding records 1, 2, 3 on three distinct commits. -/
def stB : GitState :=
  { adrNotes :=
      [("c1".toList, adrB1.toMarkdown), ("c2".toList, adrB2.toMarkdown),
       ("c3".toList, adrB3.toMarkdown)],
    head := "c1".toList, short := shortF }

/-- The allocator value observed after a delete, when the delete
succeeds. -/
def nextAfterDelete (st : GitState) (cfg : AdrConfig) (id : Str) : Option Nat :=
  match NMdelete st cfg id with
  | .ok st2 => some (nextNumber st2 cfg)
  | .error _ => none

/-- A value passing the `u32` range guard is below `2^32`. -/
theorem parseU32_aux {t : Str} {n : Nat}
    (h : (parseDigits t).bind
      (fun m => if m < 4294967296 then some m else none) = some n) :
    n < 4294967296 := by
  rcases Option.bind_eq_some.mp h with ⟨m, _, hm2⟩
  by_cases hm : m < 4294967296
  · rw [if_pos hm] at hm2
    cases hm2
    exact hm
  · rw [if_neg hm] at hm2
    cases hm2

/-- `str::parse::<u32>` only accepts values below `2^32`. -/
theorem parseU32_lt {s : Str} {n : Nat} (h : parseU32 s = some n) :
    n < 4294967296 :=
  parseU32_aux h

/-- A parsed numeric suffix is below `2^32`. -/
theorem numSuffix_lt {cfg : AdrConfig} {a : Adr} {k : Nat}
    (h : numSuffix cfg a = some k) : k < 4294967296 := by
  rw [numSuffix] at h
  rcases Option.bind_eq_some.mp h with ⟨t, _, h2⟩
  exact parseU32_lt h2

/-- Fixture record whose numeric suffix is `u32::MAX`. -/
def adrOv : Adr :=
  mkAdr "ADR-4294967295".toList "c1".toList "Max".toList "b".toList

/-- Fixture store holding only the `u32::MAX`-numbered record. -/
def stOv : GitState :=
  { adrNotes := [("c1".toList, adrOv.toMarkdown)],
    head := "c1".toList, short := shortF }

/-- C6 (amended): away from the `u32` wrap - that is, when no listed
record carries the suffix `4294967295` - `next_number()` is one plus the
maximum numeric suffix over the listed records: every parsed suffix is
strictly below it, and it is either one above some listed suffix or
exactly 1 with no record carrying a suffix.  At the wrap the claimed
characterization fails, as the increment is computed in `u32`.
Concretely (scenario B): with records numbered 1, 2, 3 on distinct
commits, deleting the record numbered 2 leaves `next_number()` equal
to 4. -/
theorem c6_next_number_max (st : GitState) (cfg : AdrConfig) :
    ((∀ a ∈ NMlist st cfg, numSuffix cfg a ≠ some 4294967295) →
      ((∀ a ∈ NMlist st cfg, ∀ k, numSuffix cfg a = some k → k < nextNumber st cfg) ∧
        ((∃ a ∈ NMlist st cfg, numSuffix cfg a = some (nextNumber st cfg - 1)) ∨
          (nextNumber st cfg = 1 ∧ ∀ a ∈ NMlist st cfg, numSuffix cfg a = none)))) ∧
    (nextNumber stB cfgD = 4 ∧ nextAfterDelete stB cfgD "ADR-0002".toList = some 4) := by
  refine ⟨?_, by decide, by decide⟩
  intro hne
  have hlt : ∀ k ∈ (NMlist st cfg).filterMap (numSuffix cfg), k < 4294967295 := by
    intro k hk
    obtain ⟨a, ha, hs⟩ := List.mem_filterMap.mp hk
    have h1 : k ≠ 4294967295 := fun he => hne a ha (he ▸ hs)
    have h2 : k < 4294967296 := numSuffix_lt hs
    omega
  have hsmall : nextNumber st cfg =
      ((NMlist st cfg).filterMap (numSuffix cfg)).foldr Nat.max 0 + 1 := by
    rw [nextNumber]
    apply Nat.mod_eq_of_lt
    rcases foldrMax_mem_or_zero ((NMlist st cfg).filterMap (numSuffix cfg)) with h | h
    · have := hlt _ h
      omega
    · rw [h]
      omega
  refine ⟨?_, ?_⟩
  · intro a ha k hk
    have hmem : k ∈ (NMlist st cfg).filterMap (numSuffix cfg) :=
      List.mem_filterMap.mpr ⟨a, ha, hk⟩
    have := le_foldrMax hmem
    rw [hsmall]
    omega
  · cases hl : (NMlist st cfg).filterMap (numSuffix cfg) with
    | nil =>
      right
      constructor
      · rw [hsmall, hl]
        rfl
      · intro a ha
        cases hs : numSuffix cfg a with
        | none => rfl
        | some k =>
          have : k ∈ (NMlist st cfg).filterMap (numSuffix cfg) :=
            List.mem_filterMap.mpr ⟨a, ha, hs⟩
          rw [hl] at this
          exact absurd this (List.not_mem_nil k)
    | cons x t =>
      left
      have hM : ((NMlist st cfg).filterMap (numSuffix cfg)).foldr Nat.max 0 ∈
          (NMlist st cfg).filterMap (numSuffix cfg) := by
        rcases foldrMax_mem_or_zero ((NMlist st cfg).filterMap (numSuffix cfg)) with h | h
        · exact h
        · have hx : x ∈ (NMlist st cfg).filterMap (numSuffix cfg) := by
            rw [hl]; exact List.mem_cons_self x t
          have := le_foldrMax hx
          rw [h] at this ⊢
          have : x = 0 := Nat.le_zero.mp this
          rw [← this]
          exact hx
      obtain ⟨a, ha, hs⟩ := List.mem_filterMap.mp hM
      refine ⟨a, ha, ?_⟩
      rw [hs, hsmall, Nat.add_sub_cancel]

/-- C6 (counterexample): in the store holding the record
`ADR-4294967295` - whose suffix parses as `u32::MAX` - the `u32`
increment wraps and `next_number()` returns 0, not the claimed
one-plus-maximum `4294967296`, and it exceeds no listed suffix. -/
theorem c6_counterexample :
    (NMlist stOv cfgD).filterMap (numSuffix cfgD) = [4294967295] ∧
    nextNumber stOv cfgD = 0 := by
  refine ⟨by decide, by decide⟩

/-- C6 (witness): the amended bound applied to the fixture store at the
record `ADR-0001`, every hypothesis discharged by evaluation. -/
theorem c6_witness : 1 < nextNumber stB cfgD :=
  ((c6_next_number_max stB cfgD).1 (by decide)).1
    (mkAdr "ADR-0001".toList "c1".toList "One".toList "b1".toList)
    (by decide) 1 (by decide)

/-- A successful `get` returns a listed record with the queried id. -/
theorem NMget_ok_mem {st : GitState} {cfg : AdrConfig} {q : Str} {a : Adr}
    (h : NMget st cfg q = .ok a) : a ∈ NMlist st cfg := by
  rw [NMget] at h
  cases hf : findFirst (fun adr => decide (adr.id = q)) (NMlist st cfg) with
  | none => rw [hf] at h; cases h
  | some b =>
    rw [hf] at h
    cases h
    obtain ⟨_, pre, post, hsplit, _⟩ := findFirst_eq_some hf
    rw [hsplit]
    exact List.mem_append_right pre (List.mem_cons_self a post)

/-- A produced list entry carries the commit it was read from. -/
theorem listEntry_commit {st : GitState} {cfg : AdrConfig} {c : Str} {r : Adr}
    (h : listEntry st cfg c = some r) : r.commit = c := by
  rw [listEntry] at h
  split at h
  · exact absurd h (by simp)
  · rename_i content heq
    split at h
    · rename_i a hpm
      cases h
      rw [Adr.fromMarkdown] at hpm
      cases hq : Adr.parseFrontmatter content with
      | ok q =>
        rw [hq] at hpm
        simp only [Except.map] at hpm
        cases hpm
        rfl
      | error e =>
        rw [hq] at hpm
        simp [Except.map] at hpm
    · exact absurd h (by simp)

/-- C3 (amended): deleting a record whose numeric suffix is strictly
below that of some other listed record leaves `next_number()` unchanged
(allocation is max-based); deleting the record carrying the unique
maximum lowers it instead, refuting the claim as stated. -/
theorem c3_delete_nonmax_keeps_next (st : GitState) (cfg : AdrConfig) (rid : Str)
    (r b : Adr) (m M : Nat)
    (hn : keysNodup st)
    (hget : NMget st cfg rid = .ok r)
    (hm : numSuffix cfg r = some m)
    (hb : b ∈ NMlist st cfg)
    (hM : numSuffix cfg b = some M)
    (hlt : m < M) :
    NMdelete st cfg rid = .ok { st with adrNotes := notesRemove st.adrNotes r.commit } ∧
    nextNumber { st with adrNotes := notesRemove st.adrNotes r.commit } cfg =
      nextNumber st cfg := by
  refine ⟨by rw [NMdelete, hget], ?_⟩
  -- locate the entry the deleted record was read from
  have hrl : r ∈ NMlist st cfg := NMget_ok_mem hget
  have hrraw : r ∈ st.adrNotes.filterMap (fun p => listEntry st cfg p.1) := by
    rw [NMlist] at hrl
    exact (sortByIdLt_perm _).mem_iff.mp hrl
  obtain ⟨p, hp, hpe⟩ := List.mem_filterMap.mp hrraw
  obtain ⟨c, v⟩ := p
  have hrc : r.commit = c := listEntry_commit hpe
  obtain ⟨l1, l2, hsplit⟩ := List.append_of_mem hp
  -- key-distinctness around the split
  have hkeys : (l1.map Prod.fst).Nodup ∧ ((c, v) :: l2) ≠ [] ∧
      c ∉ l1.map Prod.fst ∧ c ∉ l2.map Prod.fst := by
    have hks : (l1.map Prod.fst ++ c :: l2.map Prod.fst).Nodup := by
      have := hn
      rw [keysNodup, hsplit, List.map_append, List.map_cons] at this
      exact this
    obtain ⟨h1, h2, hdisj⟩ := List.nodup_append.mp hks
    refine ⟨h1, by simp, ?_, (List.nodup_cons.mp h2).1⟩
    intro hc
    exact absurd (List.mem_cons_self c _) (hdisj hc)
  -- the deleted state drops exactly that entry
  have hrem : notesRemove st.adrNotes c = l1 ++ l2 := by
    rw [hsplit, notesRemove, List.filter_append, List.filter_cons_of_neg (by simp),
      List.filter_eq_self.mpr, List.filter_eq_self.mpr]
    · intro a ha
      simp only [decide_eq_true_eq]
      intro h
      exact hkeys.2.2.2 (h ▸ List.mem_map.mpr ⟨a, ha, rfl⟩)
    · intro a ha
      simp only [decide_eq_true_eq]
      intro h
      exact hkeys.2.2.1 (h ▸ List.mem_map.mpr ⟨a, ha, rfl⟩)
  set st2 : GitState := { st with adrNotes := notesRemove st.adrNotes r.commit }
  -- entries away from the removed commit read identically in both states
  have hsame : ∀ q ∈ l1 ++ l2, listEntry st2 cfg q.1 = listEntry st cfg q.1 := by
    intro q hq
    have hqc : q.1 ≠ c := by
      intro h
      rcases List.mem_append.mp hq with hq1 | hq2
      · exact hkeys.2.2.1 (h ▸ List.mem_map.mpr ⟨q, hq1, rfl⟩)
      · exact hkeys.2.2.2 (h ▸ List.mem_map.mpr ⟨q, hq2, rfl⟩)
    rw [listEntry, listEntry]
    have : lookupKV q.1 st2.adrNotes = lookupKV q.1 st.adrNotes := by
      show lookupKV q.1 (notesRemove st.adrNotes r.commit) = _
      rw [notesRemove, hrc, lookupKV_filter_ne, if_neg hqc]
    rw [this]
  -- the raw listings, before sorting
  have hraw : st.adrNotes.filterMap (fun p => listEntry st cfg p.1) =
      l1.filterMap (fun p => listEntry st cfg p.1) ++ r ::
        l2.filterMap (fun p => listEntry st cfg p.1) := by
    rw [hsplit, List.filterMap_append, List.filterMap_cons]
    rw [hpe]
  have hraw2 : st2.adrNotes.filterMap (fun p => listEntry st2 cfg p.1) =
      l1.filterMap (fun p => listEntry st cfg p.1) ++
        l2.filterMap (fun p => listEntry st cfg p.1) := by
    show (notesRemove st.adrNotes r.commit).filterMap _ = _
    rw [hrc, hrem, List.filterMap_congr hsame, List.filterMap_append]
  -- reduce both allocator values to folds over the raw suffix lists
  have hfold : ∀ (stx : GitState),
      nextNumber stx cfg =
        (((stx.adrNotes.filterMap (fun p => listEntry stx cfg p.1)).filterMap
          (numSuffix cfg)).foldr Nat.max 0 + 1) % 4294967296 := by
    intro stx
    rw [nextNumber, NMlist,
      foldrMax_perm (((sortByIdLt_perm _).filterMap (numSuffix cfg)))]
  rw [hfold st2, hfold st, hraw, hraw2]
  apply (fun x y (h : x = y) => by rw [h] :
    ∀ x y : Nat, x = y → x % 4294967296 = y % 4294967296)
  rw [List.filterMap_append, List.filterMap_append, List.filterMap_cons, hm]
  -- the strictly larger suffix M survives the deletion
  have hMmem : M ∈ (l1.filterMap (fun p => listEntry st cfg p.1)).filterMap
      (numSuffix cfg) ++ (l2.filterMap (fun p => listEntry st cfg p.1)).filterMap
      (numSuffix cfg) := by
    have hbm : M ∈ (st.adrNotes.filterMap (fun p => listEntry st cfg p.1)).filterMap
        (numSuffix cfg) := by
      have : M ∈ (NMlist st cfg).filterMap (numSuffix cfg) :=
        List.mem_filterMap.mpr ⟨b, hb, hM⟩
      rw [NMlist] at this
      exact ((sortByIdLt_perm _).filterMap (numSuffix cfg)).mem_iff.mp this
    rw [hraw, List.filterMap_append, List.filterMap_cons, hm] at hbm
    rcases List.mem_append.mp hbm with h1 | h2
    · exact List.mem_append_left _ h1
    · rcases List.mem_cons.mp h2 with rfl | h3
      · omega
      · exact List.mem_append_right _ h3
  have hMle := le_foldrMax hMmem
  rw [foldrMax_append] at hMle
  rw [foldrMax_append, foldrMax_append, List.foldr_cons]
  simp only [natMax_def2] at hMle ⊢
  split_ifs at hMle ⊢ <;> omega

/-- C3 (counterexample): with records numbered 1, 2, 3 the suffixes are
exactly `[1, 2, 3]`; before deletion `next_number()` is 4, and deleting
`ADR-0003` - the record with the highest suffix - drops it to 3, not 4. -/
theorem c3_counterexample :
    (NMlist stB cfgD).filterMap (numSuffix cfgD) = [1, 2, 3] ∧
    nextNumber stB cfgD = 4 ∧
    nextAfterDelete stB cfgD "ADR-0003".toList = some 3 := by
  refine ⟨by decide, by decide, by decide⟩

/-- The three-record fixture after deleting record 1's note. -/
def stBdel : GitState :=
  { stB with adrNotes := notesRemove stB.adrNotes adrB1.commit }

/-- C3 (witness): the amended theorem applied to the three-record
fixture, deleting the non-maximal record `ADR-0001`. -/
theorem c3_witness :
    NMdelete stB cfgD "ADR-0001".toList = .ok stBdel ∧
    nextNumber stBdel cfgD = nextNumber stB cfgD :=
  c3_delete_nonmax_keeps_next stB cfgD "ADR-0001".toList adrB1 adrB2
    1 2 (by decide) (by decide) (by decide) (by decide) (by decide) (by decide)

/-! ## C5: one record per commit, overwrite on create -/

/-- A second fixture record targeting the same commit as `adrA`. -/
def adrA2 : Adr :=
  mkAdr "ADR-0002".toList "c1".toList "Use MySQL".toList "body two".toList

/-- C5 (confirmed): commit-key distinctness - at most one record per
commit in the records namespace - is preserved by `create`, `update` and
`delete`; and creating a record on a commit that already holds one
overwrites unconditionally and without error: after the second create,
the note at that commit is exactly the second record's serialization,
and `get_by_commit` reads back only the second record's content. -/
theorem c5_overwrite_per_commit (st : GitState) (cfg : AdrConfig)
    (adr adr1 adr2 : Adr) (c : Str) (hc : c ≠ [])
    (h1 : adr1.commit = c) (h2 : adr2.commit = c) :
    (keysNodup st → keysNodup (NMcreate st adr)) ∧
    (∀ st2, NMupdate st cfg adr = .ok st2 → keysNodup st → keysNodup st2) ∧
    (∀ st2 i, NMdelete st cfg i = .ok st2 → keysNodup st → keysNodup st2) ∧
    lookupKV c (NMcreate (NMcreate st adr1) adr2).adrNotes = some adr2.toMarkdown ∧
    NMgetByCommit (NMcreate (NMcreate st adr1) adr2) cfg c =
      Adr.fromMarkdown (extractId cfg st.short adr2.toMarkdown c) c adr2.toMarkdown := by
  have hcr : ∀ (stx : GitState) (a : Adr),
      (NMcreate stx a).adrNotes =
        notesAdd stx.adrNotes (if a.commit = [] then stx.head else a.commit)
          a.toMarkdown := fun stx a => rfl
  have hlook : lookupKV c (NMcreate (NMcreate st adr1) adr2).adrNotes =
      some adr2.toMarkdown := by
    rw [hcr, h2, if_neg hc, lookupKV_notesAdd_self]
  refine ⟨?_, ?_, ?_, hlook, ?_⟩
  · intro hn
    exact notesAdd_nodup _ _ hn
  · intro st2 hu hn
    rw [NMupdate] at hu
    cases hg : NMget st cfg adr.id with
    | error e => rw [hg] at hu; cases hu
    | ok a =>
      rw [hg] at hu
      cases hu
      exact notesAdd_nodup _ _ hn
  · intro st2 i hd hn
    rw [NMdelete] at hd
    cases hg : NMget st cfg i with
    | error e => rw [hg] at hd; cases hd
    | ok a =>
      rw [hg] at hd
      cases hd
      exact notesRemove_nodup _ hn
  · rw [NMgetByCommit, hlook]
    rfl

/-- C5 (witness): the overwrite theorem applied to the one-record
fixture, creating `adrA` then `adrA2` on the same commit. -/
theorem c5_witness :
    (keysNodup stA → keysNodup (NMcreate stA adrA)) ∧
    (∀ st2, NMupdate stA cfgD adrA = .ok st2 → keysNodup stA → keysNodup st2) ∧
    (∀ st2 i, NMdelete stA cfgD i = .ok st2 → keysNodup stA → keysNodup st2) ∧
    lookupKV "c1".toList (NMcreate (NMcreate stA adrA) adrA2).adrNotes =
      some adrA2.toMarkdown ∧
    NMgetByCommit (NMcreate (NMcreate stA adrA) adrA2) cfgD "c1".toList =
      Adr.fromMarkdown (extractId cfgD stA.short adrA2.toMarkdown "c1".toList)
        "c1".toList adrA2.toMarkdown :=
  c5_overwrite_per_commit stA cfgD adrA adrA adrA2 ("c1".toList)
    (by decide) (by decide) (by decide)

/-! ## C10: rebuilding the index -/

/-- Lookup through an insert-or-replace. -/
theorem lookupKV_insertKV {α : Type} (l : List (Str × α)) (j k : Str) (v : α) :
    lookupKV k (insertKV l j v) = if j = k then some v else lookupKV k l := by
  induction l with
  | nil => rfl
  | cons p t ih =>
    obtain ⟨k2, v2⟩ := p
    rw [insertKV]
    by_cases hj : k2 = j
    · subst hj
      by_cases hk : k2 = k
      · subst hk
        rw [if_pos rfl, lookupKV, if_pos rfl, lookupKV, if_pos rfl]
      · rw [if_pos rfl, lookupKV, if_neg hk, lookupKV, if_neg hk, if_neg hk]
    · rw [if_neg hj, lookupKV, lookupKV, ih]
      by_cases hk : k2 = k
      · subst hk
        rw [if_pos rfl, if_pos rfl, if_neg (fun h => hj h.symm)]
      · rw [if_neg hk, if_neg hk]

/-- Insert-or-replace keeps keys pairwise distinct. -/
theorem insertKV_nodup {α : Type} {l : List (Str × α)} (j : Str) (v : α)
    (h : (l.map Prod.fst).Nodup) : ((insertKV l j v).map Prod.fst).Nodup := by
  induction l with
  | nil => simp [insertKV]
  | cons p t ih =>
    obtain ⟨k2, v2⟩ := p
    rw [List.map_cons, List.nodup_cons] at h
    rw [insertKV]
    by_cases hj : k2 = j
    · subst hj
      rw [if_pos rfl, List.map_cons, List.nodup_cons]
      exact h
    · rw [if_neg hj, List.map_cons, List.nodup_cons]
      refine ⟨?_, ih h.2⟩
      intro hmem
      rcases List.mem_map.mp hmem with ⟨q, hq, hqe⟩
      have : q.1 = j ∨ q ∈ t := by
        clear ih h hmem
        induction t with
        | nil =>
          rw [insertKV] at hq
          rcases List.mem_singleton.mp hq with rfl
          exact Or.inl rfl
        | cons p2 t2 ih2 =>
          obtain ⟨k3, v3⟩ := p2
          rw [insertKV] at hq
          by_cases hk3 : k3 = j
          · subst hk3
            rw [if_pos rfl] at hq
            rcases List.mem_cons.mp hq with rfl | hq2
            · exact Or.inl rfl
            · exact Or.inr (List.mem_cons_of_mem _ hq2)
          · rw [if_neg hk3] at hq
            rcases List.mem_cons.mp hq with rfl | hq2
            · exact Or.inr (List.mem_cons_self _ _)
            · rcases ih2 hq2 with h3 | h3
              · exact Or.inl h3
              · exact Or.inr (List.mem_cons_of_mem _ h3)
      rcases this with h3 | h3
      · exact hj (hqe.symm.trans h3)
      · exact h.1 (List.mem_map.mpr ⟨q, h3, hqe⟩)

/-- `findFirst` over an append takes the left hit first. -/
theorem findFirst_append {α : Type} (p : α → Bool) (l1 l2 : List α) :
    findFirst p (l1 ++ l2) =
      match findFirst p l1 with
      | some a => some a
      | none => findFirst p l2 := by
  induction l1 with
  | nil => rfl
  | cons x t ih =>
    rw [List.cons_append, findFirst, findFirst]
    by_cases hx : p x = true
    · rw [if_pos hx, if_pos hx]
    · rw [if_neg hx, if_neg hx, ih]

/-- The entry of the rebuilt-index fold for a key is the entry of the
last matching record, else whatever the initial index held. -/
theorem lookup_rebuild_fold (l : List Adr) (idx : SearchIndex) (k : Str) :
    lookupKV k ((l.foldl (fun i a => i.upsert (IndexEntry.fromAdr a)) idx).entries) =
      match findFirst (fun a => decide (a.id = k)) l.reverse with
      | some a => some (IndexEntry.fromAdr a)
      | none => lookupKV k idx.entries := by
  induction l generalizing idx with
  | nil => rfl
  | cons a t ih =>
    rw [List.foldl_cons, ih, List.reverse_cons, findFirst_append]
    cases hf : findFirst (fun a => decide (a.id = k)) t.reverse with
    | some b => rfl
    | none =>
      show _ = match findFirst _ [a] with
        | some a => some (IndexEntry.fromAdr a)
        | none => lookupKV k idx.entries
      rw [findFirst]
      by_cases hk : a.id = k
      · rw [if_pos (by simpa using hk)]
        show lookupKV k (insertKV idx.entries a.id (IndexEntry.fromAdr a)) = _
        rw [lookupKV_insertKV, if_pos hk]
      · rw [if_neg (by simpa using hk), findFirst]
        show lookupKV k (insertKV idx.entries a.id (IndexEntry.fromAdr a)) = _
        rw [lookupKV_insertKV, if_neg hk]

/-- Fixture store with two notes sharing one record id. -/
def stDup : GitState :=
  { adrNotes :=
      [("c1".toList, (mkAdr "ADR-0001".toList "c1".toList "One".toList "b1".toList).toMarkdown),
       ("c2".toList, (mkAdr "ADR-0001".toList "c2".toList "Dup".toList "b2".toList).toMarkdown)],
    head := "c1".toList, short := shortF }

/-- C10 (confirmed): after `IndexManager::rebuild`, the index holds an
entry for exactly the ids of `store.list()`, keyed without duplicates,
and the entry of an id is derived from the last listed record with that
id; with two listed records sharing an id, the index has one entry for
two records. -/
theorem c10_rebuild_index (st : GitState) (cfg : AdrConfig) :
    ((∀ k, (lookupKV k (IMrebuild st cfg).entries).isSome ↔
        ∃ a ∈ NMlist st cfg, a.id = k) ∧
      (∀ k e, lookupKV k (IMrebuild st cfg).entries = some e →
        ∃ a, findFirst (fun a => decide (a.id = k)) (NMlist st cfg).reverse = some a ∧
          e = IndexEntry.fromAdr a) ∧
      ((IMrebuild st cfg).entries.map Prod.fst).Nodup) ∧
    ((IMrebuild stDup cfgD).entries.length = 1 ∧ (NMlist stDup cfgD).length = 2) := by
  refine ⟨⟨?_, ?_, ?_⟩, by decide, by decide⟩
  · intro k
    rw [IMrebuild, lookup_rebuild_fold]
    cases hf : findFirst (fun a => decide (a.id = k)) (NMlist st cfg).reverse with
    | some a =>
      simp only [Option.isSome_some, true_iff]
      obtain ⟨hpa, pre, post, hsplit, _⟩ := findFirst_eq_some hf
      refine ⟨a, ?_, of_decide_eq_true hpa⟩
      rw [← List.mem_reverse, hsplit]
      exact List.mem_append_right pre (List.mem_cons_self a post)
    | none =>
      show (lookupKV k SearchIndex.new.entries).isSome ↔ _
      rw [SearchIndex.new]
      simp only [lookupKV, Option.isSome_none, Bool.false_eq_true, false_iff]
      rintro ⟨a, ha, rfl⟩
      have := findFirst_eq_none.mp hf a (List.mem_reverse.mpr ha)
      simp at this
  · intro k e he
    rw [IMrebuild, lookup_rebuild_fold] at he
    cases hf : findFirst (fun a => decide (a.id = k)) (NMlist st cfg).reverse with
    | some a =>
      rw [hf] at he
      cases he
      exact ⟨a, rfl, rfl⟩
    | none =>
      rw [hf] at he
      cases he
  · rw [IMrebuild]
    have : ∀ (l : List Adr) (idx : SearchIndex), (idx.entries.map Prod.fst).Nodup →
        (((l.foldl (fun i a => i.upsert (IndexEntry.fromAdr a)) idx).entries).map
          Prod.fst).Nodup := by
      intro l
      induction l with
      | nil => intro idx h; exact h
      | cons a t ih =>
        intro idx h
        rw [List.foldl_cons]
        exact ih _ (insertKV_nodup _ _ h)
    exact this _ SearchIndex.new (by simp [SearchIndex.new])

/-- C10 (witness): the general part applied to the one-record fixture. -/
theorem c10_witness :
    (∀ k, (lookupKV k (IMrebuild stA cfgD).entries).isSome ↔
      ∃ a ∈ NMlist stA cfgD, a.id = k) ∧
    (∀ k e, lookupKV k (IMrebuild stA cfgD).entries = some e →
      ∃ a, findFirst (fun a => decide (a.id = k)) (NMlist stA cfgD).reverse = some a ∧
        e = IndexEntry.fromAdr a) ∧
    ((IMrebuild stA cfgD).entries.map Prod.fst).Nodup :=
  (c10_rebuild_index stA cfgD).1

/-! ## C8: sync error policy -/

/-- C8 (confirmed): `sync` fails only through a records-namespace push
failure - fetch outcomes on either namespace never fail it; when the
records push fails, that error is returned and the artifacts push is not
attempted; when the records push succeeds, `sync` succeeds even if the
artifacts push would fail. -/
theorem c8_sync_error_policy (env : SyncEnv) (remote : Str) (push fetch : Bool) :
    (∀ e, (NMsync env remote push fetch).1 = .error e →
      push = true ∧ env.pushAdr = some e) ∧
    (∀ e, env.pushAdr = some e → push = true →
      (NMsync env remote push fetch).1 = .error e ∧
        SyncOp.pushArtOp ∉ (NMsync env remote push fetch).2) ∧
    (env.pushAdr = none → (NMsync env remote push fetch).1 = .ok ()) := by
  refine ⟨?_, ?_, ?_⟩
  · intro e he
    rw [NMsync] at he
    cases push with
    | false => simp at he
    | true =>
      simp only [if_true] at he
      cases hp : env.pushAdr with
      | none => rw [hp] at he; simp at he
      | some e2 =>
        rw [hp] at he
        simp only [Prod.fst] at he
        cases he
        exact ⟨rfl, rfl⟩
  · intro e he hp
    subst hp
    rw [NMsync, he]
    refine ⟨rfl, ?_⟩
    simp only [if_true]
    intro hmem
    rcases List.mem_append.mp hmem with h1 | h2
    · cases fetch with
      | false => simp at h1
      | true =>
        simp only [if_true] at h1
        rcases List.mem_cons.mp h1 with h3 | h3 <;> simp_all
    · rcases List.mem_cons.mp h2 with h3 | h3
      · cases h3
      · exact absurd h3 (List.not_mem_nil _)
  · intro hp
    rw [NMsync, hp]
    cases push <;> rfl

/-- Fixture environment: both fetches and the artifacts push fail, the
records push succeeds. -/
def envW : SyncEnv :=
  { fetchAdr := some (.gitError "fa".toList),
    fetchArt := some (.gitError "fb".toList),
    pushAdr := none,
    pushArt := some (.gitError "pa".toList) }

/-- C8 (witness): the policy applied to `envW` - `sync` still returns
success despite every non-records failure. -/
theorem c8_witness : (NMsync envW "origin".toList true true).1 = .ok () :=
  (c8_sync_error_policy envW "origin".toList true true).2.2 (by rfl)

/-! ## C4: rendering an unknown template -/

/-- C4 (amended): `TemplateEngine::render` on a name not present in the
registry returns the typed `TemplateError` render-failure variant - not
`TemplateNotFound`, which only `get_template` raises. -/
theorem c4_render_unknown (eng : TemplateEngine) (name : Str)
    (ctx : List (Str × Str)) (h : lookupKV name eng.templates = none) :
    eng.render name ctx = .error (.templateError (renderErrMsg name)) ∧
    ∀ n, eng.render name ctx ≠ .error (.templateNotFound n) := by
  rw [TemplateEngine.render, h]
  exact ⟨rfl, fun n hc => by cases hc⟩

/-- C4 (counterexample): on the engine with the five built-in templates,
rendering the unknown name `missing` yields `TemplateError`, not the
`TemplateNotFound` the claim requires. -/
theorem c4_counterexample :
    TemplateEngine.new.render "missing".toList [] =
      .error (.templateError (renderErrMsg "missing".toList)) ∧
    (match TemplateEngine.new.render "missing".toList [] with
      | .error (.templateNotFound _) => true
      | _ => false) = false := by
  constructor
  · rfl
  · rfl

/-- C4 (witness): the amended theorem applied to the built-in engine at
the unknown name `missing`, the lookup failure discharged by
evaluation. -/
theorem c4_witness :
    TemplateEngine.new.render "missing".toList [] =
      .error (.templateError (renderErrMsg "missing".toList)) ∧
    ∀ n, TemplateEngine.new.render "missing".toList [] ≠
      .error (.templateNotFound n) :=
  c4_render_unknown TemplateEngine.new ("missing".toList) [] (by rfl)

/-! ## Lemmas: the decimal printer and parser -/

/-- Digit characters parse back to their value. -/
theorem digitVal_dChar {r : Nat} (h : r < 10) : digitVal (dChar r) = some r := by
  interval_cases r <;> decide

/-- The fuelled printer is empty on zero. -/
theorem natToStrAux_zero : ∀ f, natToStrAux f 0 = []
  | 0 => rfl
  | _ + 1 => by rw [natToStrAux, if_pos rfl]

/-- Folding the digits of a printed positive number accumulates its
value. -/
theorem digitsVal_natToStrAux : ∀ (f n acc : Nat) (B : Str), 0 < n → n < 10 ^ f →
    digitsVal acc (natToStrAux f n ++ B) =
      digitsVal (acc * 10 ^ (natToStrAux f n).length + n) B
  | 0, n, _, _, hpos, hlt => by
    rw [pow_zero] at hlt
    omega
  | f + 1, n, acc, B, hpos, hlt => by
    rw [natToStrAux, if_neg (by omega)]
    have hd : digitVal (dChar (n % 10)) = some (n % 10) :=
      digitVal_dChar (Nat.mod_lt n (by omega))
    by_cases hq : n / 10 = 0
    · rw [hq, natToStrAux_zero, List.nil_append, List.singleton_append]
      simp only [digitsVal, hd]
      have h1 : ([dChar (n % 10)] : Str).length = 1 := rfl
      rw [h1, pow_one]
      congr 1
      omega
    · have hqlt : n / 10 < 10 ^ f := by
        rw [Nat.div_lt_iff_lt_mul (by omega)]
        rw [pow_succ] at hlt
        exact hlt
      rw [List.append_assoc, List.singleton_append]
      rw [digitsVal_natToStrAux f (n / 10) acc _ (by omega) hqlt]
      simp only [digitsVal, hd]
      congr 1
      have hlen : (natToStrAux f (n / 10) ++ [dChar (n % 10)]).length =
          (natToStrAux f (n / 10)).length + 1 := by simp
      rw [hlen, pow_succ, ← mul_assoc]
      set A := acc * 10 ^ (natToStrAux f (n / 10)).length
      omega

/-- The decimal rendering is never empty. -/
theorem natToStr_ne_nil (n : Nat) : natToStr n ≠ [] := by
  rw [natToStr]
  by_cases h : n = 0
  · rw [if_pos h]; simp
  · rw [if_neg h, natToStrAux, if_neg h]
    simp

/-- The decimal rendering parses back to the number. -/
theorem digitsVal_natToStr (n : Nat) : digitsVal 0 (natToStr n) = some n := by
  by_cases h : n = 0
  · subst h; decide
  · rw [natToStr, if_neg h, ← List.append_nil (natToStrAux (n + 1) n)]
    rw [digitsVal_natToStrAux (n + 1) n 0 [] (by omega)
      (lt_of_lt_of_le (Nat.lt_pow_self (by omega) n)
        (Nat.pow_le_pow_right (by omega) (by omega)))]
    rw [Nat.zero_mul, Nat.zero_add]
    rfl

/-- Leading zeros do not change the parsed value. -/
theorem digitsVal_replicate_zero : ∀ (k : Nat) (T : Str),
    digitsVal 0 (List.replicate k '0' ++ T) = digitsVal 0 T
  | 0, _ => rfl
  | k + 1, T => by
    rw [List.replicate_succ, List.cons_append, digitsVal]
    have : digitVal '0' = some 0 := by decide
    rw [this]
    exact digitsVal_replicate_zero k T

/-- A zero-padded decimal rendering parses back to the number. -/
theorem parseDigits_padNum (w n : Nat) :
    parseDigits (padNum w (natToStr n)) = some n := by
  rw [padNum, parseDigits]
  rw [if_neg (by
    intro h
    rcases List.append_eq_nil.mp h with ⟨_, h2⟩
    exact natToStr_ne_nil n h2)]
  rw [digitsVal_replicate_zero, digitsVal_natToStr]

/-- The printed length is bounded by any digit budget covering the
value. -/
theorem natToStrAux_length : ∀ (f n d : Nat), n < 10 ^ d →
    (natToStrAux f n).length ≤ d
  | 0, _, _, _ => by simp [natToStrAux]
  | f + 1, n, d, hlt => by
    by_cases h : n = 0
    · rw [h, natToStrAux_zero]; simp
    · rw [natToStrAux, if_neg h]
      cases d with
      | zero =>
        rw [pow_zero] at hlt
        omega
      | succ e =>
        have hqlt : n / 10 < 10 ^ e := by
          rw [Nat.div_lt_iff_lt_mul (by omega)]
          rw [pow_succ] at hlt
          exact hlt
        have := natToStrAux_length f (n / 10) e hqlt
        simp only [List.length_append, List.length_cons, List.length_nil]
        omega

/-- Length bound for the rendering of a bounded number. -/
theorem natToStr_length {n d : Nat} (h1 : 1 ≤ d) (h2 : n < 10 ^ d) :
    (natToStr n).length ≤ d := by
  rw [natToStr]
  by_cases h : n = 0
  · rw [if_pos h]; simpa using h1
  · rw [if_neg h]
    exact natToStrAux_length (n + 1) n d h2

/-! ## C7: `format_id` -/

/-- C7 (amended): for every configuration, `format_id` is injective on
`[0, 10^digits)` - indeed the parsed value is recoverable - and the
portion after the prefix is the decimal rendering left-padded with
zeros; provided the digit width is at least 1, that portion is exactly
`digits` characters long.  (With `digits = 0` the portion for `n = 0`
is the single character `0`, so the exact-length clause needs the
width to be positive.) -/
theorem c7_format_id (cfg : AdrConfig) (n m : Nat)
    (hn : n < 10 ^ cfg.digits) (hm : m < 10 ^ cfg.digits) :
    (formatId cfg n = formatId cfg m → n = m) ∧
    (formatId cfg n).drop cfg.pfx.length =
      List.replicate (cfg.digits - (natToStr n).length) '0' ++ natToStr n ∧
    (1 ≤ cfg.digits → ((formatId cfg n).drop cfg.pfx.length).length = cfg.digits) := by
  have hdrop : ∀ k, (formatId cfg k).drop cfg.pfx.length =
      padNum cfg.digits (natToStr k) := by
    intro k
    rw [formatId, List.drop_left]
  refine ⟨?_, by rw [hdrop n, padNum], ?_⟩
  · intro he
    have h2 : padNum cfg.digits (natToStr n) = padNum cfg.digits (natToStr m) := by
      rw [← hdrop n, ← hdrop m, he]
    have h3 := parseDigits_padNum cfg.digits n
    rw [h2, parseDigits_padNum cfg.digits m] at h3
    exact (Option.some_injective _ h3).symm
  · intro hd
    rw [hdrop n, padNum]
    simp only [List.length_append, List.length_replicate]
    have := natToStr_length hd hn
    omega

/-- C7 (counterexample): with digit width 0 and `n = 0 ∈ [0, 10^0)`, the
portion after the prefix is one character long, not zero characters -
refuting the exact-width clause for the degenerate width. -/
theorem c7_counterexample :
    (0 : Nat) < 10 ^ (({ cfgD with digits := 0 } : AdrConfig)).digits ∧
    ((formatId { cfgD with digits := 0 } 0).drop
      ({ cfgD with digits := 0 } : AdrConfig).pfx.length).length = 1 := by
  constructor
  · decide
  · decide

/-- C7 (witness): the amended theorem applied at the default
configuration to 42 and 999. -/
theorem c7_witness :
    (formatId cfgD 42 = formatId cfgD 999 → 42 = 999) ∧
    (formatId cfgD 42).drop cfgD.pfx.length =
      List.replicate (cfgD.digits - (natToStr 42).length) '0' ++ natToStr 42 ∧
    (1 ≤ cfgD.digits → ((formatId cfgD 42).drop cfgD.pfx.length).length = cfgD.digits) :=
  c7_format_id cfgD 42 999 (by decide) (by decide)

/-! ## Lemmas: the quoted-scalar codec -/

/-- Reading an opening quote closes the empty scalar. -/
theorem scanQuoted_quote (r : Str) : scanQuoted ('"' :: r) = some ([], r) := by
  rw [scanQuoted.eq_def]
  rfl

/-- Reading a backslash unescapes the next character. -/
theorem scanQuoted_esc2 (d : Char) (rest : Str) :
    scanQuoted ('\\' :: d :: rest) =
      (scanQuoted rest).map (fun p => (unescChar d :: p.1, p.2)) := by
  rw [scanQuoted.eq_def]
  rfl

/-- Reading an ordinary character keeps it. -/
theorem scanQuoted_other {c : Char} (h1 : c ≠ '"') (h2 : c ≠ '\\') (rest : Str) :
    scanQuoted (c :: rest) = (scanQuoted rest).map (fun p => (c :: p.1, p.2)) := by
  rw [scanQuoted.eq_def]
  show (if c = '"' then some ([], rest)
    else if c = '\\' then
      (match rest with
       | [] => none
       | d :: rest2 => (scanQuoted rest2).map (fun p => (unescChar d :: p.1, p.2)))
    else (scanQuoted rest).map (fun p => (c :: p.1, p.2))) = _
  rw [if_neg h1, if_neg h2]

/-- Parsing a quoted scalar inverts escaping. -/
theorem scanQuoted_escStr : ∀ (s r : Str), scanQuoted (escStr s ++ '"' :: r) = some (s, r)
  | [], r => by rw [escStr, List.nil_append, scanQuoted_quote]
  | c :: t, r => by
    rw [escStr]
    by_cases h1 : c = '"'
    · subst h1
      have he : escChar '"' = ['\\', '"'] := by decide
      rw [he]
      simp only [List.cons_append, List.singleton_append, List.nil_append,
        List.append_assoc]
      rw [scanQuoted_esc2, scanQuoted_escStr t r]
      rfl
    · by_cases h2 : c = '\\'
      · subst h2
        have he : escChar '\\' = ['\\', '\\'] := by decide
        rw [he]
        simp only [List.cons_append, List.singleton_append, List.nil_append,
          List.append_assoc]
        rw [scanQuoted_esc2, scanQuoted_escStr t r]
        rfl
      · by_cases h3 : c = '\n'
        · subst h3
          have he : escChar '\n' = ['\\', 'n'] := by decide
          rw [he]
          simp only [List.cons_append, List.singleton_append, List.nil_append,
            List.append_assoc]
          rw [scanQuoted_esc2, scanQuoted_escStr t r]
          rfl
        · have he : escChar c = [c] := by rw [escChar, if_neg h1, if_neg h2, if_neg h3]
          rw [he]
          simp only [List.cons_append, List.singleton_append, List.nil_append,
            List.append_assoc]
          rw [scanQuoted_other h1 h2, scanQuoted_escStr t r]
          rfl

/-! ## Lemmas: the flow-value codec -/

/-- Values in canonical parse form: an emitted empty sequence reads back
as an empty scalar sequence, so a map sequence must be non-empty, with
non-empty maps (serde_yaml values always are). -/
def YVal.canonical : YVal → Prop
  | .scalar _ => True
  | .seqStr _ => True
  | .seqMap items => items ≠ [] ∧ ∀ m ∈ items, m ≠ []

/-- Canonicality is decidable. -/
instance YVal.canonicalDec : (v : YVal) → Decidable v.canonical
  | .scalar _ => .isTrue trivial
  | .seqStr _ => .isTrue trivial
  | .seqMap items => inferInstanceAs (Decidable (_ ∧ _))

/-- Emitted map interiors are at least as long as their entry count. -/
theorem le_length_emitKVs : ∀ m : List (Str × Str), m.length ≤ (emitKVs m).length
  | [] => by simp [emitKVs]
  | [(k, v)] => by simp [emitKVs, emitQ]
  | (k, v) :: p :: m' => by
    have := le_length_emitKVs (p :: m')
    simp only [emitKVs, emitQ, List.length_cons, List.length_append]
    simp only [List.length_cons] at this
    omega

/-- Emitted scalar-sequence interiors are at least as long as their item
count. -/
theorem le_length_emitSeqStr : ∀ items : List Str,
    items.length ≤ (emitSeqStr items).length
  | [] => by simp [emitSeqStr]
  | [x] => by simp [emitSeqStr, emitQ]
  | x :: y :: t => by
    have := le_length_emitSeqStr (y :: t)
    simp only [emitSeqStr, emitQ, List.length_cons, List.length_append]
    simp only [List.length_cons] at this
    omega

/-- Emitted map-sequence interiors are at least as long as their item
count. -/
theorem le_length_emitSeqMap : ∀ items : List (List (Str × Str)),
    items.length ≤ (emitSeqMap items).length
  | [] => by simp [emitSeqMap]
  | [m] => by simp [emitSeqMap]
  | m :: p :: t => by
    have := le_length_emitSeqMap (p :: t)
    simp only [emitSeqMap, List.length_cons, List.length_append]
    simp only [List.length_cons] at this
    omega

/-- Reading a flow map inverts its emission. -/
theorem parseKVs_emit : ∀ (m : List (Str × Str)) (f : Nat) (r : Str), m ≠ [] →
    m.length ≤ f → parseKVs f (emitKVs m ++ '}' :: r) = some (m, r)
  | [], _, _, h, _ => absurd rfl h
  | [(k, v)], f, r, _, hlen => by
    cases f with
    | zero => simp at hlen
    | succ f2 =>
      simp only [emitKVs, emitQ, List.cons_append, List.append_assoc,
        List.singleton_append, List.nil_append]
      simp only [parseKVs, scanQuoted_escStr, Option.some_bind]
  | (k, v) :: p :: m', f, r, _, hlen => by
    cases f with
    | zero => simp at hlen
    | succ f2 =>
      simp only [emitKVs, emitQ, List.cons_append, List.append_assoc,
        List.singleton_append, List.nil_append]
      simp only [parseKVs, scanQuoted_escStr, Option.some_bind]
      have hrec := parseKVs_emit (p :: m') f2 r (by simp) (by
        simp only [List.length_cons] at hlen ⊢
        omega)
      simp only [emitKVs, emitQ, List.cons_append, List.append_assoc,
        List.singleton_append, List.nil_append] at hrec
      rw [hrec]
      rfl

/-- Reading a non-empty flow sequence of scalars inverts its emission. -/
theorem parseQItems_emit : ∀ (items : List Str) (f : Nat) (r : Str), items ≠ [] →
    items.length ≤ f → parseQItems f (emitSeqStr items ++ ']' :: r) = some (items, r)
  | [], _, _, h, _ => absurd rfl h
  | [x], f, r, _, hlen => by
    cases f with
    | zero => simp at hlen
    | succ f2 =>
      simp only [emitSeqStr, emitQ, List.cons_append, List.append_assoc,
        List.singleton_append, List.nil_append]
      simp only [parseQItems, scanQuoted_escStr, Option.some_bind]
  | x :: y :: t, f, r, _, hlen => by
    cases f with
    | zero => simp at hlen
    | succ f2 =>
      simp only [emitSeqStr, emitQ, List.cons_append, List.append_assoc,
        List.singleton_append, List.nil_append]
      simp only [parseQItems, scanQuoted_escStr, Option.some_bind]
      have hrec := parseQItems_emit (y :: t) f2 r (by simp) (by
        simp only [List.length_cons] at hlen ⊢
        omega)
      simp only [emitSeqStr, emitQ, List.cons_append, List.append_assoc,
        List.singleton_append, List.nil_append] at hrec
      rw [hrec]
      rfl

/-- Reading a non-empty flow sequence of maps inverts its emission. -/
theorem parseMItems_emit : ∀ (items : List (List (Str × Str))) (f : Nat) (r : Str),
    items ≠ [] → (∀ m ∈ items, m ≠ []) → items.length ≤ f →
    parseMItems f (emitSeqMap items ++ ']' :: r) = some (items, r)
  | [], _, _, h, _, _ => absurd rfl h
  | [m'], f, r, _, hm, hlen => by
    cases f with
    | zero => simp at hlen
    | succ f2 =>
      simp only [emitSeqMap, List.cons_append, List.append_assoc,
        List.singleton_append, List.nil_append]
      simp only [parseMItems]
      rw [parseKVs_emit m' _ _ (hm m' (by simp)) (by
        have := le_length_emitKVs m'
        simp only [List.length_append, List.length_cons]
        omega)]
      rfl
  | m' :: p' :: t', f, r, _, hm, hlen => by
    cases f with
    | zero => simp at hlen
    | succ f2 =>
      simp only [emitSeqMap, List.cons_append, List.append_assoc,
        List.singleton_append, List.nil_append]
      simp only [parseMItems]
      rw [parseKVs_emit m' _ _ (hm m' (by simp)) (by
        have := le_length_emitKVs m'
        simp only [List.length_append, List.length_cons]
        omega)]
      have hrec := parseMItems_emit (p' :: t') f2 r (by simp)
        (fun q hq => hm q (List.mem_cons_of_mem _ hq)) (by
          simp only [List.length_cons] at hlen ⊢
          omega)
      simp only [emitSeqMap, List.cons_append, List.append_assoc,
        List.singleton_append, List.nil_append] at hrec
      simp only [Option.some_bind]
      rw [hrec]
      rfl

/-- A non-empty emitted scalar sequence starts with a quote. -/
theorem emitSeqStr_head : ∀ (i : Str) (is : List Str),
    ∃ w, emitSeqStr (i :: is) = '"' :: w
  | i, [] => ⟨escStr i ++ ['"'], by simp [emitSeqStr, emitQ]⟩
  | i, p :: is' =>
    ⟨escStr i ++ ['"'] ++ ',' :: emitSeqStr (p :: is'), by
      show emitQ i ++ ',' :: emitSeqStr (p :: is') = _
      simp [emitQ, List.append_assoc]⟩

/-- A non-empty emitted map sequence starts with an opening brace. -/
theorem emitSeqMap_head : ∀ (m : List (Str × Str)) (ms : List (List (Str × Str))),
    ∃ w, emitSeqMap (m :: ms) = '{' :: w
  | m, [] => ⟨emitKVs m ++ ['}'], by simp [emitSeqMap]⟩
  | m, p :: ms' =>
    ⟨emitKVs m ++ '}' :: ',' :: emitSeqMap (p :: ms'), by simp [emitSeqMap]⟩

/-- Reading a flow value inverts its emission, for canonical values. -/
theorem parseVal_emit : ∀ (v : YVal) (r : Str), YVal.canonical v →
    parseVal (emitVal v ++ r) = some (v, r)
  | .scalar s, r, _ => by
    rw [emitVal, emitQ]
    simp only [List.cons_append, List.append_assoc, List.singleton_append,
      List.nil_append]
    simp only [parseVal, scanQuoted_escStr]
    rfl
  | .seqStr [], r, _ => by
    rw [emitVal, emitSeqStr]
    simp only [List.cons_append, List.append_assoc, List.singleton_append,
      List.nil_append]
    rw [parseVal]
  | .seqStr (i :: is), r, _ => by
    obtain ⟨w, hw⟩ := emitSeqStr_head i is
    have hin : emitVal (.seqStr (i :: is)) ++ r = '[' :: '"' :: (w ++ ']' :: r) := by
      rw [emitVal, hw]
      simp [List.append_assoc]
    rw [hin]
    simp only [parseVal]
    have hback : '"' :: (w ++ ']' :: r) = emitSeqStr (i :: is) ++ ']' :: r := by
      rw [hw]
      rfl
    rw [hback, parseQItems_emit (i :: is) _ r (by simp) (by
      have h1 := le_length_emitSeqStr (i :: is)
      have h2 : (emitSeqStr (i :: is)).length = w.length + 1 := by rw [hw]; rfl
      simp only [List.length_append, List.length_cons] at h1 h2 ⊢
      omega)]
    rfl
  | .seqMap [], r, hcan => absurd rfl hcan.1
  | .seqMap (m :: ms), r, hcan => by
    obtain ⟨w, hw⟩ := emitSeqMap_head m ms
    have hin : emitVal (.seqMap (m :: ms)) ++ r = '[' :: '{' :: (w ++ ']' :: r) := by
      rw [emitVal, hw]
      simp [List.append_assoc]
    rw [hin]
    simp only [parseVal]
    have hback : '{' :: (w ++ ']' :: r) = emitSeqMap (m :: ms) ++ ']' :: r := by
      rw [hw]
      rfl
    rw [hback, parseMItems_emit (m :: ms) _ r (by simp) hcan.2 (by
      have h1 := le_length_emitSeqMap (m :: ms)
      have h2 : (emitSeqMap (m :: ms)).length = w.length + 1 := by rw [hw]; rfl
      simp only [List.length_append, List.length_cons] at h1 h2 ⊢
      omega)]
    rfl

/-! ## Lemmas: the line codec -/

/-- Escaped text never contains a raw newline. -/
theorem nl_not_mem_escStr (s : Str) : '\n' ∉ escStr s := by
  induction s with
  | nil => rw [escStr]; simp
  | cons c t ih =>
    rw [escStr]
    intro hmem
    rcases List.mem_append.mp hmem with h | h
    · rw [escChar] at h
      by_cases h1 : c = '"'
      · rw [if_pos h1] at h; simp at h
      · by_cases h2 : c = '\\'
        · rw [if_neg h1, if_pos h2] at h; simp at h
        · by_cases h3 : c = '\n'
          · rw [if_neg h1, if_neg h2, if_pos h3] at h; simp at h
          · rw [if_neg h1, if_neg h2, if_neg h3] at h
            rcases List.mem_singleton.mp h with rfl
            exact h3 rfl
    · exact ih h

/-- Not a member of either part, not a member of the append. -/
theorem not_mem_append2 {c : Char} {A B : Str} (ha : c ∉ A) (hb : c ∉ B) :
    c ∉ A ++ B := by
  intro h
  rcases List.mem_append.mp h with h1 | h1
  · exact ha h1
  · exact hb h1

/-- Not the head and not in the tail, not a member of the cons. -/
theorem not_mem_cons2 {c d : Char} {B : Str} (hd : c ≠ d) (hb : c ∉ B) :
    c ∉ d :: B := by
  intro h
  rcases List.mem_cons.mp h with h1 | h1
  · exact hd h1
  · exact hb h1

/-- A quoted scalar never contains a raw newline. -/
theorem nl_not_mem_emitQ (s : Str) : '\n' ∉ emitQ s := by
  rw [emitQ]
  exact not_mem_cons2 (by decide)
    (not_mem_append2 (nl_not_mem_escStr s)
      (not_mem_cons2 (by decide) (List.not_mem_nil _)))

/-- An emitted map interior never contains a raw newline. -/
theorem nl_not_mem_emitKVs : ∀ m : List (Str × Str), '\n' ∉ emitKVs m
  | [] => by rw [emitKVs]; exact List.not_mem_nil _
  | [(k, v)] => by
    rw [emitKVs]
    exact not_mem_append2 (nl_not_mem_emitQ k)
      (not_mem_cons2 (by decide) (nl_not_mem_emitQ v))
  | (k, v) :: p :: t => by
    rw [emitKVs]
    exact not_mem_append2
      (not_mem_append2 (nl_not_mem_emitQ k)
        (not_mem_cons2 (by decide) (nl_not_mem_emitQ v)))
      (not_mem_cons2 (by decide) (nl_not_mem_emitKVs (p :: t)))
    simp

/-- An emitted scalar-sequence interior never contains a raw newline. -/
theorem nl_not_mem_emitSeqStr : ∀ items : List Str, '\n' ∉ emitSeqStr items
  | [] => by rw [emitSeqStr]; exact List.not_mem_nil _
  | [x] => by rw [emitSeqStr]; exact nl_not_mem_emitQ x
  | x :: y :: t => by
    rw [emitSeqStr]
    exact not_mem_append2 (nl_not_mem_emitQ x)
      (not_mem_cons2 (by decide) (nl_not_mem_emitSeqStr (y :: t)))
    simp

/-- An emitted map-sequence interior never contains a raw newline. -/
theorem nl_not_mem_emitSeqMap : ∀ items : List (List (Str × Str)),
    '\n' ∉ emitSeqMap items
  | [] => by rw [emitSeqMap]; exact List.not_mem_nil _
  | [m] => by
    rw [emitSeqMap]
    exact not_mem_cons2 (by decide)
      (not_mem_append2 (nl_not_mem_emitKVs m)
        (not_mem_cons2 (by decide) (List.not_mem_nil _)))
  | m :: p :: t => by
    rw [emitSeqMap]
    exact not_mem_cons2 (by decide)
      (not_mem_append2 (nl_not_mem_emitKVs m)
        (not_mem_cons2 (by decide)
          (not_mem_cons2 (by decide) (nl_not_mem_emitSeqMap (p :: t)))))
    simp

/-- No emitted value contains a raw newline. -/
theorem nl_not_mem_emitVal (v : YVal) : '\n' ∉ emitVal v := by
  cases v with
  | scalar s => exact nl_not_mem_emitQ s
  | seqStr items =>
    rw [emitVal]
    exact not_mem_cons2 (by decide)
      (not_mem_append2 (nl_not_mem_emitSeqStr items)
        (not_mem_cons2 (by decide) (List.not_mem_nil _)))
  | seqMap items =>
    rw [emitVal]
    exact not_mem_cons2 (by decide)
      (not_mem_append2 (nl_not_mem_emitSeqMap items)
        (not_mem_cons2 (by decide) (List.not_mem_nil _)))

/-- No emitted line contains a raw newline. -/
theorem nl_not_mem_emitLine (e : Str × YVal) : '\n' ∉ emitLine e := by
  rw [emitLine]
  exact not_mem_append2 (nl_not_mem_emitQ e.1)
    (not_mem_cons2 (by decide) (nl_not_mem_emitVal e.2))

/-- Every emitted line starts with a quote. -/
theorem emitLine_head (e : Str × YVal) : ∃ w, emitLine e = '"' :: w :=
  ⟨escStr e.1 ++ '"' :: ':' :: emitVal e.2, by
    rw [emitLine, emitQ]
    simp [List.append_assoc]⟩

/-- Reading a line inverts its emission, for canonical values. -/
theorem parseLine_emitLine (e : Str × YVal) (hcan : YVal.canonical e.2) :
    parseLine (emitLine e) = some e := by
  obtain ⟨k, v⟩ := e
  show parseLine (emitQ k ++ ':' :: emitVal v) = some (k, v)
  rw [emitQ]
  simp only [List.cons_append, List.append_assoc, List.singleton_append,
    List.nil_append]
  simp only [parseLine, scanQuoted_escStr, Option.some_bind]
  rw [← List.append_nil (emitVal v), parseVal_emit v [] hcan]
  rfl

/-! ## Lemmas: splitting the emitted block -/

/-- Splitting a separator-free string yields one chunk. -/
theorem splitOnChar_not_mem {c : Char} : ∀ {l : Str}, c ∉ l → splitOnChar c l = [l]
  | [], _ => rfl
  | d :: t, h => by
    rw [splitOnChar, if_neg (fun he => h (by cases he; exact List.mem_cons_self _ _))]
    rw [splitOnChar_not_mem (fun hm => h (List.mem_cons_of_mem d hm))]

/-- Splitting after a separator-free chunk peels it off. -/
theorem splitOnChar_append_cons {c : Char} : ∀ {l : Str} (rest : Str), c ∉ l →
    splitOnChar c (l ++ c :: rest) = l :: splitOnChar c rest
  | [], rest, _ => by
    rw [List.nil_append, splitOnChar, if_pos rfl]
  | d :: t, rest, h => by
    rw [List.cons_append, splitOnChar,
      if_neg (fun he => h (by cases he; exact List.mem_cons_self _ _)),
      splitOnChar_append_cons rest (fun hm => h (List.mem_cons_of_mem d hm))]

/-- The emitted block of a non-empty entry list is non-empty. -/
theorem yamlEmit_ne_nil (e : Str × YVal) (es : List (Str × YVal)) :
    yamlEmit (e :: es) ≠ [] := by
  rw [yamlEmit, List.map_cons, List.foldr_cons]
  intro h
  rcases List.append_eq_nil.mp h with ⟨_, h2⟩
  cases h2

/-- Dropping the final newline of the emitted block and splitting on
newlines recovers the emitted lines. -/
theorem splitOnChar_yamlEmit_dropLast : ∀ (e : Str × YVal) (es : List (Str × YVal)),
    splitOnChar '\n' ((yamlEmit (e :: es)).dropLast) = (e :: es).map emitLine
  | e, [] => by
    show splitOnChar '\n' ((emitLine e ++ '\n' :: yamlEmit []).dropLast) = _
    rw [show yamlEmit ([] : List (Str × YVal)) = [] from rfl]
    rw [show (emitLine e ++ ['\n']).dropLast = emitLine e from by
      rw [List.dropLast_concat]]
    rw [splitOnChar_not_mem (nl_not_mem_emitLine e)]
    rfl
  | e, e2 :: t => by
    show splitOnChar '\n' ((emitLine e ++ '\n' :: yamlEmit (e2 :: t)).dropLast) = _
    rw [List.dropLast_append_of_ne_nil _ (List.cons_ne_nil '\n' (yamlEmit (e2 :: t)))]
    rw [List.dropLast_cons_of_ne_nil (yamlEmit_ne_nil e2 t)]
    rw [splitOnChar_append_cons _ (nl_not_mem_emitLine e)]
    rw [splitOnChar_yamlEmit_dropLast e2 t]
    rfl

/-- Reading the interior the parser is handed - a leading newline, then
the block minus its final newline - recovers the emitted entries. -/
theorem yamlFromStr_emit (e : Str × YVal) (es : List (Str × YVal))
    (hcan : ∀ x ∈ e :: es, YVal.canonical x.2)
    (hnd : ((e :: es).map Prod.fst).Nodup) :
    yamlFromStr ('\n' :: (yamlEmit (e :: es)).dropLast) = some (e :: es) := by
  rw [yamlFromStr]
  rw [show splitOnChar '\n' ('\n' :: (yamlEmit (e :: es)).dropLast) =
      [] :: splitOnChar '\n' ((yamlEmit (e :: es)).dropLast) from by
    rw [splitOnChar, if_pos rfl]]
  rw [splitOnChar_yamlEmit_dropLast e es]
  rw [List.filter_cons_of_neg (by simp)]
  have hlines : ∀ (l : List (Str × YVal)), (∀ x ∈ l, YVal.canonical x.2) →
      ((l.map emitLine).filter (fun l2 => !l2.isEmpty)) = l.map emitLine ∧
      mapOpt parseLine (l.map emitLine) = some l := by
    intro l
    induction l with
    | nil => exact fun _ => ⟨rfl, rfl⟩
    | cons x t ih =>
      intro hc
      obtain ⟨ih1, ih2⟩ := ih (fun y hy => hc y (List.mem_cons_of_mem x hy))
      constructor
      · rw [List.map_cons, List.filter_cons_of_pos, ih1]
        obtain ⟨w, hw⟩ := emitLine_head x
        rw [hw]
        rfl
      · rw [List.map_cons, mapOpt, parseLine_emitLine x (hc x (List.mem_cons_self x t)),
          ih2]
        rfl
  obtain ⟨h1, h2⟩ := hlines (e :: es) hcan
  rw [h1, h2]
  simp only [Option.some_bind]
  rw [if_pos hnd]


/-! ## Lemmas: locating the closing delimiter, trimming -/

/-- The emitted block unfolds one line at a time. -/
theorem yamlEmit_cons (e : Str × YVal) (es : List (Str × YVal)) :
    yamlEmit (e :: es) = emitLine e ++ '\n' :: yamlEmit es := rfl

/-- `find` at a position where the pattern starts. -/
theorem substrIdx_hit {s pat : Str} (h : prefixOfB pat s = true) :
    substrIdx s pat = some 0 := by
  rw [substrIdx.eq_def]
  exact if_pos h

/-- `find` steps over a position where the pattern does not start. -/
theorem substrIdx_cons_not {c : Char} {t pat : Str}
    (h : prefixOfB pat (c :: t) = false) :
    substrIdx (c :: t) pat = (substrIdx t pat).map (· + 1) := by
  rw [substrIdx.eq_def]
  show (if prefixOfB pat (c :: t) = true then some 0
    else (substrIdx t pat).map (· + 1)) = (substrIdx t pat).map (· + 1)
  rw [if_neg (by simp [h])]

/-- The closing-delimiter pattern. -/
def nlD3 : Str := ['\n', '-', '-', '-']

/-- The pattern cannot start at a non-newline character. -/
theorem prefixOfB_nlD3_ne {c : Char} (h : c ≠ '\n') (t : Str) :
    prefixOfB nlD3 (c :: t) = false := by
  rw [nlD3, prefixOfB, if_neg (fun he => h he.symm)]

/-- The pattern cannot start at a newline followed by a quote. -/
theorem prefixOfB_nlD3_quote (t : Str) :
    prefixOfB nlD3 ('\n' :: '"' :: t) = false := by
  rw [nlD3, prefixOfB, if_pos rfl, prefixOfB, if_neg (by decide)]

/-- The pattern starts at a newline followed by three dashes. -/
theorem prefixOfB_nlD3_dashes (t : Str) :
    prefixOfB nlD3 ('\n' :: '-' :: '-' :: '-' :: t) = true := by
  rw [nlD3, prefixOfB, if_pos rfl, prefixOfB, if_pos rfl, prefixOfB, if_pos rfl,
    prefixOfB, if_pos rfl, prefixOfB]

/-- Skipping a newline-free chunk shifts the found position. -/
theorem substrIdx_nlD3_append : ∀ {body : Str}, '\n' ∉ body → ∀ X : Str,
    substrIdx (body ++ X) nlD3 = (substrIdx X nlD3).map (· + body.length)
  | [], _, X => by
    rw [List.nil_append]
    cases h : substrIdx X nlD3 with
    | none => rfl
    | some i => simp
  | c :: t, h, X => by
    rw [List.cons_append]
    rw [substrIdx_cons_not (prefixOfB_nlD3_ne
      (fun he => h (he ▸ List.mem_cons_self c t)) _)]
    rw [substrIdx_nlD3_append (fun hm => h (List.mem_cons_of_mem c hm)) X]
    cases hx : substrIdx X nlD3 with
    | none => rfl
    | some i =>
      simp only [Option.map_some', List.length_cons]
      rfl

/-- The first occurrence of the closing-delimiter pattern after the
emitted block is exactly at the block's final newline. -/
theorem substrIdx_yamlEmit : ∀ (es : List (Str × YVal)) (t : Str),
    substrIdx ('\n' :: (yamlEmit es ++ '-' :: '-' :: '-' :: t)) nlD3 =
      some (yamlEmit es).length
  | [], t => by
    rw [show yamlEmit ([] : List (Str × YVal)) = [] from rfl, List.nil_append]
    rw [substrIdx_hit (prefixOfB_nlD3_dashes t)]
    rfl
  | e :: es', t => by
    rw [yamlEmit_cons]
    obtain ⟨w, hw⟩ := emitLine_head e
    have hshape : (emitLine e ++ '\n' :: yamlEmit es') ++ '-' :: '-' :: '-' :: t =
        emitLine e ++ ('\n' :: (yamlEmit es' ++ '-' :: '-' :: '-' :: t)) := by
      simp [List.append_assoc]
    rw [hshape]
    have hpre : prefixOfB nlD3
        ('\n' :: (emitLine e ++ ('\n' :: (yamlEmit es' ++ '-' :: '-' :: '-' :: t)))) =
          false := by
      rw [hw, List.cons_append]
      exact prefixOfB_nlD3_quote _
    rw [substrIdx_cons_not hpre]
    rw [substrIdx_nlD3_append (nl_not_mem_emitLine e) _]
    rw [substrIdx_yamlEmit es' t]
    simp only [Option.map_some', List.length_append, List.length_cons]
    congr 1
    omega

/-- Dropping a leading non-whitespace character is the identity. -/
theorem ltrimStr_cons_not_ws {c : Char} (h : ¬ c.isWhitespace) (t : Str) :
    ltrimStr (c :: t) = c :: t := by
  rw [ltrimStr, List.dropWhile_cons, if_neg (by simpa using h)]

/-- Leading whitespace is dropped. -/
theorem ltrimStr_cons_ws {c : Char} (h : c.isWhitespace) (t : Str) :
    ltrimStr (c :: t) = ltrimStr t := by
  rw [ltrimStr, List.dropWhile_cons, if_pos (by simpa using h), ltrimStr]

/-- Trailing trim distributes over an append. -/
theorem rtrimStr_append (A B : Str) :
    rtrimStr (A ++ B) = if rtrimStr B = [] then rtrimStr A else A ++ rtrimStr B := by
  rw [rtrimStr, List.reverse_append, List.dropWhile_append]
  by_cases h : (B.reverse.dropWhile Char.isWhitespace).isEmpty
  · rw [if_pos h]
    have hb : rtrimStr B = [] := by
      rw [rtrimStr]
      rw [List.isEmpty_iff] at h
      rw [h]
      rfl
    rw [if_pos hb]
    rfl
  · rw [if_neg h]
    have hb : rtrimStr B ≠ [] := by
      rw [rtrimStr]
      intro hc
      rw [List.isEmpty_iff] at h
      exact h (by simpa using congrArg List.reverse hc)
    rw [if_neg hb, List.reverse_append, List.reverse_reverse]
    rfl

/-- Dropping while is idempotent. -/
theorem dropWhile_idem (p : Char → Bool) : ∀ l : Str,
    (l.dropWhile p).dropWhile p = l.dropWhile p
  | [] => rfl
  | c :: t => by
    rw [List.dropWhile_cons]
    by_cases h : p c = true
    · rw [if_pos h]
      exact dropWhile_idem p t
    · rw [if_neg h, List.dropWhile_cons, if_neg h]

/-- Trailing trim is idempotent. -/
theorem rtrimStr_idem (x : Str) : rtrimStr (rtrimStr x) = rtrimStr x := by
  rw [rtrimStr, rtrimStr, List.reverse_reverse, dropWhile_idem]


/-! ## Lemmas: frontmatter field round trip -/

/-- Association lookup over an append takes the left hit first. -/
theorem lookupKV_append {α : Type} (k : Str) : ∀ l1 l2 : List (Str × α),
    lookupKV k (l1 ++ l2) =
      match lookupKV k l1 with
      | some v => some v
      | none => lookupKV k l2
  | [], l2 => rfl
  | (k2, v) :: t, l2 => by
    rw [List.cons_append, lookupKV, lookupKV]
    by_cases h : k2 = k
    · rw [if_pos h, if_pos h]
    · rw [if_neg h, if_neg h, lookupKV_append k t l2]

/-- Lookup of a key with no matching entry. -/
theorem lookupKV_none_of_keys {α : Type} {k : Str} : ∀ {l : List (Str × α)},
    (∀ e ∈ l, e.1 ≠ k) → lookupKV k l = none
  | [], _ => rfl
  | (k2, v) :: t, h => by
    rw [lookupKV, if_neg (h (k2, v) (List.mem_cons_self _ _))]
    exact lookupKV_none_of_keys (fun e he => h e (List.mem_cons_of_mem _ he))

/-- Lookup passes an optional entry with a different key. -/
theorem lookupKV_chunk_ne (k k2 : Str) (ov : Option YVal)
    (rest : List (Str × YVal)) (h : k2 ≠ k) :
    lookupKV k (chunk k2 ov ++ rest) = lookupKV k rest := by
  cases ov with
  | none => rw [chunk, List.nil_append]
  | some v => rw [chunk, List.cons_append, lookupKV, if_neg h, List.nil_append]

/-- Lookup lands on its own optional entry when the remainder misses. -/
theorem lookupKV_chunk_self (k : Str) (ov : Option YVal)
    (rest : List (Str × YVal)) (hrest : lookupKV k rest = none) :
    lookupKV k (chunk k ov ++ rest) = ov := by
  cases ov with
  | none => rw [chunk, List.nil_append, hrest]
  | some v => rw [chunk, List.cons_append, lookupKV, if_pos rfl]

/-- Boolean string membership agrees with list membership. -/
theorem elemStr_true_iff (k : Str) : ∀ l : List Str, elemStr k l = true ↔ k ∈ l
  | [] => by simp [elemStr]
  | x :: t => by
    rw [elemStr]
    by_cases h : x = k
    · subst h
      simp
    · rw [if_neg h, elemStr_true_iff k t]
      constructor
      · exact List.mem_cons_of_mem x
      · intro hm
        rcases List.mem_cons.mp hm with h1 | h1
        · exact absurd h1.symm h
        · exact h1

/-- Extension keys never collide with a fixed field name. -/
theorem lookupKV_custom_none {fm : AdrFrontmatter} {k : Str}
    (hk : k ∈ fixedNames)
    (hc : ∀ e ∈ fm.custom, elemStr e.1 fixedNames = false) :
    lookupKV k fm.custom = none :=
  lookupKV_none_of_keys (fun e he heq => by
    have := hc e he
    rw [heq] at this
    rw [(elemStr_true_iff k fixedNames).mpr hk] at this
    cases this)

/-- Lookup of the `id` field among the emitted entries. -/
theorem lk_fm_id (fm : AdrFrontmatter)
    (hc : ∀ e ∈ fm.custom, elemStr e.1 fixedNames = false) :
    lookupKV "id".toList (fmToEntries fm) =
      (fm.id.map YVal.scalar) := by
  rw [fmToEntries]
  simp only [List.append_assoc]
  refine lookupKV_chunk_self _ _ _ ?_
  rw [lookupKV_chunk_ne _ _ _ _ (by decide)]
  rw [lookupKV_chunk_ne _ _ _ _ (by decide)]
  rw [lookupKV_chunk_ne _ _ _ _ (by decide)]
  rw [lookupKV_chunk_ne _ _ _ _ (by decide)]
  rw [lookupKV_chunk_ne _ _ _ _ (by decide)]
  rw [lookupKV_chunk_ne _ _ _ _ (by decide)]
  rw [lookupKV_chunk_ne _ _ _ _ (by decide)]
  rw [lookupKV_chunk_ne _ _ _ _ (by decide)]
  rw [lookupKV_chunk_ne _ _ _ _ (by decide)]
  rw [lookupKV_chunk_ne _ _ _ _ (by decide)]
  exact lookupKV_custom_none (by decide) hc

/-- Lookup of the `title` field among the emitted entries. -/
theorem lk_fm_title (fm : AdrFrontmatter)
    (hc : ∀ e ∈ fm.custom, elemStr e.1 fixedNames = false) :
    lookupKV "title".toList (fmToEntries fm) =
      (some (YVal.scalar fm.title)) := by
  rw [fmToEntries]
  simp only [List.append_assoc]
  rw [lookupKV_chunk_ne _ _ _ _ (by decide)]
  refine lookupKV_chunk_self _ _ _ ?_
  rw [lookupKV_chunk_ne _ _ _ _ (by decide)]
  rw [lookupKV_chunk_ne _ _ _ _ (by decide)]
  rw [lookupKV_chunk_ne _ _ _ _ (by decide)]
  rw [lookupKV_chunk_ne _ _ _ _ (by decide)]
  rw [lookupKV_chunk_ne _ _ _ _ (by decide)]
  rw [lookupKV_chunk_ne _ _ _ _ (by decide)]
  rw [lookupKV_chunk_ne _ _ _ _ (by decide)]
  rw [lookupKV_chunk_ne _ _ _ _ (by decide)]
  rw [lookupKV_chunk_ne _ _ _ _ (by decide)]
  exact lookupKV_custom_none (by decide) hc

/-- Lookup of the `status` field among the emitted entries. -/
theorem lk_fm_status (fm : AdrFrontmatter)
    (hc : ∀ e ∈ fm.custom, elemStr e.1 fixedNames = false) :
    lookupKV "status".toList (fmToEntries fm) =
      (some (YVal.scalar (statusStr fm.status))) := by
  rw [fmToEntries]
  simp only [List.append_assoc]
  rw [lookupKV_chunk_ne _ _ _ _ (by decide)]
  rw [lookupKV_chunk_ne _ _ _ _ (by decide)]
  refine lookupKV_chunk_self _ _ _ ?_
  rw [lookupKV_chunk_ne _ _ _ _ (by decide)]
  rw [lookupKV_chunk_ne _ _ _ _ (by decide)]
  rw [lookupKV_chunk_ne _ _ _ _ (by decide)]
  rw [lookupKV_chunk_ne _ _ _ _ (by decide)]
  rw [lookupKV_chunk_ne _ _ _ _ (by decide)]
  rw [lookupKV_chunk_ne _ _ _ _ (by decide)]
  rw [lookupKV_chunk_ne _ _ _ _ (by decide)]
  rw [lookupKV_chunk_ne _ _ _ _ (by decide)]
  exact lookupKV_custom_none (by decide) hc

/-- Lookup of the `date` field among the emitted entries. -/
theorem lk_fm_date (fm : AdrFrontmatter)
    (hc : ∀ e ∈ fm.custom, elemStr e.1 fixedNames = false) :
    lookupKV "date".toList (fmToEntries fm) =
      (fm.date.map (fun d => YVal.scalar (dateStr d))) := by
  rw [fmToEntries]
  simp only [List.append_assoc]
  rw [lookupKV_chunk_ne _ _ _ _ (by decide)]
  rw [lookupKV_chunk_ne _ _ _ _ (by decide)]
  rw [lookupKV_chunk_ne _ _ _ _ (by decide)]
  refine lookupKV_chunk_self _ _ _ ?_
  rw [lookupKV_chunk_ne _ _ _ _ (by decide)]
  rw [lookupKV_chunk_ne _ _ _ _ (by decide)]
  rw [lookupKV_chunk_ne _ _ _ _ (by decide)]
  rw [lookupKV_chunk_ne _ _ _ _ (by decide)]
  rw [lookupKV_chunk_ne _ _ _ _ (by decide)]
  rw [lookupKV_chunk_ne _ _ _ _ (by decide)]
  rw [lookupKV_chunk_ne _ _ _ _ (by decide)]
  exact lookupKV_custom_none (by decide) hc

/-- Lookup of the `tags` field among the emitted entries. -/
theorem lk_fm_tags (fm : AdrFrontmatter)
    (hc : ∀ e ∈ fm.custom, elemStr e.1 fixedNames = false) :
    lookupKV "tags".toList (fmToEntries fm) =
      (if fm.tags = [] then none else some (YVal.seqStr fm.tags)) := by
  rw [fmToEntries]
  simp only [List.append_assoc]
  rw [lookupKV_chunk_ne _ _ _ _ (by decide)]
  rw [lookupKV_chunk_ne _ _ _ _ (by decide)]
  rw [lookupKV_chunk_ne _ _ _ _ (by decide)]
  rw [lookupKV_chunk_ne _ _ _ _ (by decide)]
  refine lookupKV_chunk_self _ _ _ ?_
  rw [lookupKV_chunk_ne _ _ _ _ (by decide)]
  rw [lookupKV_chunk_ne _ _ _ _ (by decide)]
  rw [lookupKV_chunk_ne _ _ _ _ (by decide)]
  rw [lookupKV_chunk_ne _ _ _ _ (by decide)]
  rw [lookupKV_chunk_ne _ _ _ _ (by decide)]
  rw [lookupKV_chunk_ne _ _ _ _ (by decide)]
  exact lookupKV_custom_none (by decide) hc

/-- Lookup of the `authors` field among the emitted entries. -/
theorem lk_fm_authors (fm : AdrFrontmatter)
    (hc : ∀ e ∈ fm.custom, elemStr e.1 fixedNames = false) :
    lookupKV "authors".toList (fmToEntries fm) =
      (if fm.authors = [] then none else some (YVal.seqStr fm.authors)) := by
  rw [fmToEntries]
  simp only [List.append_assoc]
  rw [lookupKV_chunk_ne _ _ _ _ (by decide)]
  rw [lookupKV_chunk_ne _ _ _ _ (by decide)]
  rw [lookupKV_chunk_ne _ _ _ _ (by decide)]
  rw [lookupKV_chunk_ne _ _ _ _ (by decide)]
  rw [lookupKV_chunk_ne _ _ _ _ (by decide)]
  refine lookupKV_chunk_self _ _ _ ?_
  rw [lookupKV_chunk_ne _ _ _ _ (by decide)]
  rw [lookupKV_chunk_ne _ _ _ _ (by decide)]
  rw [lookupKV_chunk_ne _ _ _ _ (by decide)]
  rw [lookupKV_chunk_ne _ _ _ _ (by decide)]
  rw [lookupKV_chunk_ne _ _ _ _ (by decide)]
  exact lookupKV_custom_none (by decide) hc

/-- Lookup of the `deciders` field among the emitted entries. -/
theorem lk_fm_deciders (fm : AdrFrontmatter)
    (hc : ∀ e ∈ fm.custom, elemStr e.1 fixedNames = false) :
    lookupKV "deciders".toList (fmToEntries fm) =
      (if fm.deciders = [] then none else some (YVal.seqStr fm.deciders)) := by
  rw [fmToEntries]
  simp only [List.append_assoc]
  rw [lookupKV_chunk_ne _ _ _ _ (by decide)]
  rw [lookupKV_chunk_ne _ _ _ _ (by decide)]
  rw [lookupKV_chunk_ne _ _ _ _ (by decide)]
  rw [lookupKV_chunk_ne _ _ _ _ (by decide)]
  rw [lookupKV_chunk_ne _ _ _ _ (by decide)]
  rw [lookupKV_chunk_ne _ _ _ _ (by decide)]
  refine lookupKV_chunk_self _ _ _ ?_
  rw [lookupKV_chunk_ne _ _ _ _ (by decide)]
  rw [lookupKV_chunk_ne _ _ _ _ (by decide)]
  rw [lookupKV_chunk_ne _ _ _ _ (by decide)]
  rw [lookupKV_chunk_ne _ _ _ _ (by decide)]
  exact lookupKV_custom_none (by decide) hc

/-- Lookup of the `links` field among the emitted entries. -/
theorem lk_fm_links (fm : AdrFrontmatter)
    (hc : ∀ e ∈ fm.custom, elemStr e.1 fixedNames = false) :
    lookupKV "links".toList (fmToEntries fm) =
      (if fm.links = [] then none
      else some (YVal.seqMap (fm.links.map (fun l => [("rel".toList, l.rel), ("target".toList, l.target)])))) := by
  rw [fmToEntries]
  simp only [List.append_assoc]
  rw [lookupKV_chunk_ne _ _ _ _ (by decide)]
  rw [lookupKV_chunk_ne _ _ _ _ (by decide)]
  rw [lookupKV_chunk_ne _ _ _ _ (by decide)]
  rw [lookupKV_chunk_ne _ _ _ _ (by decide)]
  rw [lookupKV_chunk_ne _ _ _ _ (by decide)]
  rw [lookupKV_chunk_ne _ _ _ _ (by decide)]
  rw [lookupKV_chunk_ne _ _ _ _ (by decide)]
  refine lookupKV_chunk_self _ _ _ ?_
  rw [lookupKV_chunk_ne _ _ _ _ (by decide)]
  rw [lookupKV_chunk_ne _ _ _ _ (by decide)]
  rw [lookupKV_chunk_ne _ _ _ _ (by decide)]
  exact lookupKV_custom_none (by decide) hc

/-- Lookup of the `format` field among the emitted entries. -/
theorem lk_fm_format (fm : AdrFrontmatter)
    (hc : ∀ e ∈ fm.custom, elemStr e.1 fixedNames = false) :
    lookupKV "format".toList (fmToEntries fm) =
      (fm.format.map YVal.scalar) := by
  rw [fmToEntries]
  simp only [List.append_assoc]
  rw [lookupKV_chunk_ne _ _ _ _ (by decide)]
  rw [lookupKV_chunk_ne _ _ _ _ (by decide)]
  rw [lookupKV_chunk_ne _ _ _ _ (by decide)]
  rw [lookupKV_chunk_ne _ _ _ _ (by decide)]
  rw [lookupKV_chunk_ne _ _ _ _ (by decide)]
  rw [lookupKV_chunk_ne _ _ _ _ (by decide)]
  rw [lookupKV_chunk_ne _ _ _ _ (by decide)]
  rw [lookupKV_chunk_ne _ _ _ _ (by decide)]
  refine lookupKV_chunk_self _ _ _ ?_
  rw [lookupKV_chunk_ne _ _ _ _ (by decide)]
  rw [lookupKV_chunk_ne _ _ _ _ (by decide)]
  exact lookupKV_custom_none (by decide) hc

/-- Lookup of the `supersedes` field among the emitted entries. -/
theorem lk_fm_supersedes (fm : AdrFrontmatter)
    (hc : ∀ e ∈ fm.custom, elemStr e.1 fixedNames = false) :
    lookupKV "supersedes".toList (fmToEntries fm) =
      (fm.supersedes.map YVal.scalar) := by
  rw [fmToEntries]
  simp only [List.append_assoc]
  rw [lookupKV_chunk_ne _ _ _ _ (by decide)]
  rw [lookupKV_chunk_ne _ _ _ _ (by decide)]
  rw [lookupKV_chunk_ne _ _ _ _ (by decide)]
  rw [lookupKV_chunk_ne _ _ _ _ (by decide)]
  rw [lookupKV_chunk_ne _ _ _ _ (by decide)]
  rw [lookupKV_chunk_ne _ _ _ _ (by decide)]
  rw [lookupKV_chunk_ne _ _ _ _ (by decide)]
  rw [lookupKV_chunk_ne _ _ _ _ (by decide)]
  rw [lookupKV_chunk_ne _ _ _ _ (by decide)]
  refine lookupKV_chunk_self _ _ _ ?_
  rw [lookupKV_chunk_ne _ _ _ _ (by decide)]
  exact lookupKV_custom_none (by decide) hc

/-- Lookup of the `superseded_by` field among the emitted entries. -/
theorem lk_fm_ssb (fm : AdrFrontmatter)
    (hc : ∀ e ∈ fm.custom, elemStr e.1 fixedNames = false) :
    lookupKV "superseded_by".toList (fmToEntries fm) =
      (fm.superseded_by.map YVal.scalar) := by
  rw [fmToEntries]
  simp only [List.append_assoc]
  rw [lookupKV_chunk_ne _ _ _ _ (by decide)]
  rw [lookupKV_chunk_ne _ _ _ _ (by decide)]
  rw [lookupKV_chunk_ne _ _ _ _ (by decide)]
  rw [lookupKV_chunk_ne _ _ _ _ (by decide)]
  rw [lookupKV_chunk_ne _ _ _ _ (by decide)]
  rw [lookupKV_chunk_ne _ _ _ _ (by decide)]
  rw [lookupKV_chunk_ne _ _ _ _ (by decide)]
  rw [lookupKV_chunk_ne _ _ _ _ (by decide)]
  rw [lookupKV_chunk_ne _ _ _ _ (by decide)]
  rw [lookupKV_chunk_ne _ _ _ _ (by decide)]
  refine lookupKV_chunk_self _ _ _ ?_
  exact lookupKV_custom_none (by decide) hc

/-- Decoding an optional scalar field recovers the optional string. -/
theorem optField_scalar_eval (k : Str) (es : List (Str × YVal)) (ov : Option Str)
    (h : lookupKV k es = ov.map YVal.scalar) : optField k es asScalar = some ov := by
  cases ov with
  | none => simp [optField, h]
  | some s => simp [optField, h, asScalar]

/-- Decoding a defaulted string-list field recovers the list. -/
theorem dfltField_list_eval (k : Str) (es : List (Str × YVal)) (l : List Str)
    (h : lookupKV k es = if l = [] then none else some (YVal.seqStr l)) :
    dfltField k es [] asStrList = some l := by
  by_cases hl : l = []
  · rw [if_pos hl] at h
    rw [dfltField, h, hl]
  · rw [if_neg hl] at h
    rw [dfltField, h]
    rfl

/-- Serde round-trips each status name. -/
theorem statusFromScalar_statusStr (st : AdrStatus) :
    statusFromScalar (statusStr st) = some st := by
  cases st <;> decide

/-- Decoding the defaulted status field recovers the status. -/
theorem dfltField_status_eval (es : List (Str × YVal)) (st : AdrStatus)
    (h : lookupKV "status".toList es = some (YVal.scalar (statusStr st))) :
    dfltField "status".toList es AdrStatus.proposed
      (fun v => (asScalar v).bind statusFromScalar) = some st := by
  rw [dfltField, h]
  show (asScalar (YVal.scalar (statusStr st))).bind statusFromScalar = some st
  rw [asScalar, Option.some_bind, statusFromScalar_statusStr]

/-- Decoding one emitted link map recovers the link. -/
theorem decodeLink_pair (r t : Str) :
    decodeLink [("rel".toList, r), ("target".toList, t)] = some ⟨r, t⟩ := by
  rw [decodeLink, lookupKV, if_pos rfl, lookupKV, if_neg (by decide), lookupKV,
    if_pos rfl]

/-- Decoding the emitted link maps recovers the link list. -/
theorem mapOpt_decodeLink : ∀ ls : List AdrLink,
    mapOpt decodeLink
      (ls.map (fun l => [("rel".toList, l.rel), ("target".toList, l.target)])) =
      some ls
  | [] => rfl
  | l :: t => by
    rw [List.map_cons, mapOpt, decodeLink_pair, mapOpt_decodeLink t]
    rfl

/-- Decoding the defaulted links field recovers the link list. -/
theorem dfltField_links_eval (es : List (Str × YVal)) (ls : List AdrLink)
    (h : lookupKV "links".toList es = if ls = [] then none
      else some (YVal.seqMap
        (ls.map (fun l => [("rel".toList, l.rel), ("target".toList, l.target)])))) :
    dfltField "links".toList es [] asLinks = some ls := by
  by_cases hl : ls = []
  · rw [if_pos hl] at h
    rw [dfltField, h, hl]
  · rw [if_neg hl] at h
    rw [dfltField, h]
    show asLinks (YVal.seqMap _) = some ls
    rw [asLinks, mapOpt_decodeLink]

/-- Every character the fuelled printer emits is a digit character. -/
theorem natToStrAux_chars : ∀ (f n : Nat) (c : Char), c ∈ natToStrAux f n →
    ∃ m, m < 10 ∧ c = dChar m
  | 0, _, _, h => absurd h (List.not_mem_nil _)
  | f + 1, n, c, h => by
    rw [natToStrAux] at h
    by_cases hn : n = 0
    · rw [if_pos hn] at h
      exact absurd h (List.not_mem_nil _)
    · rw [if_neg hn] at h
      rcases List.mem_append.mp h with h1 | h1
      · exact natToStrAux_chars f (n / 10) c h1
      · rcases List.mem_singleton.mp h1 with rfl
        exact ⟨n % 10, Nat.mod_lt _ (by omega), rfl⟩

/-- Every character of a printed number is a digit character. -/
theorem natToStr_chars (n : Nat) (c : Char) (h : c ∈ natToStr n) :
    ∃ m, m < 10 ∧ c = dChar m := by
  rw [natToStr] at h
  by_cases hn : n = 0
  · rw [if_pos hn] at h
    rcases List.mem_singleton.mp h with rfl
    exact ⟨0, by omega, rfl⟩
  · rw [if_neg hn] at h
    exact natToStrAux_chars _ _ c h

/-- Every character of a padded printed number is a digit character. -/
theorem padNum_chars (w n : Nat) (c : Char) (h : c ∈ padNum w (natToStr n)) :
    ∃ m, m < 10 ∧ c = dChar m := by
  rw [padNum] at h
  rcases List.mem_append.mp h with h1 | h1
  · exact ⟨0, by omega, List.eq_of_mem_replicate h1⟩
  · exact natToStr_chars n c h1

/-- A non-digit character never occurs in a padded printed number. -/
theorem not_mem_padNum (c : Char) (hc : ∀ m, m < 10 → dChar m ≠ c) (w n : Nat) :
    c ∉ padNum w (natToStr n) := fun h => by
  obtain ⟨m, hm, he⟩ := padNum_chars w n c h
  exact hc m hm he.symm

/-- The date-only rendering contains no `T` separator. -/
theorem t_not_mem_dateStr (d : FlexibleDate) : 'T' ∉ dateStr d := by
  rw [dateStr, List.append_assoc, List.cons_append]
  intro h
  rcases List.mem_append.mp h with h1 | h1
  · exact not_mem_padNum 'T' (by decide) _ _ h1
  · rcases List.mem_cons.mp h1 with h2 | h2
    · cases h2
    · rcases List.mem_append.mp h2 with h3 | h3
      · exact not_mem_padNum 'T' (by decide) _ _ h3
      · rcases List.mem_cons.mp h3 with h4 | h4
        · cases h4
        · exact not_mem_padNum 'T' (by decide) _ _ h4

/-- Splitting the date-only rendering on dashes yields its components. -/
theorem splitOnChar_dateStr (d : FlexibleDate) :
    splitOnChar '-' (dateStr d) =
      [padNum 4 (natToStr d.year), padNum 2 (natToStr d.month),
        padNum 2 (natToStr d.day)] := by
  rw [dateStr, List.append_assoc, List.cons_append]
  rw [splitOnChar_append_cons _ (not_mem_padNum '-' (by decide) 4 d.year)]
  rw [splitOnChar_append_cons _ (not_mem_padNum '-' (by decide) 2 d.month)]
  rw [splitOnChar_not_mem (not_mem_padNum '-' (by decide) 2 d.day)]

/-- Chrono rejects the date-only rendering as RFC 3339. -/
theorem parseRFC3339_dateStr (d : FlexibleDate) :
    parseRFC3339 (dateStr d) = none := by
  rw [parseRFC3339.eq_def]
  rw [splitOnChar_not_mem (t_not_mem_dateStr d)]

/-- Date-only parsing inverts the date-only rendering, at midnight. -/
theorem parseDateOnly_dateStr (d : FlexibleDate) :
    parseDateOnly (dateStr d) = some d.atMidnight := by
  rw [parseDateOnly.eq_def, splitOnChar_dateStr]
  simp only [parseDigits_padNum]
  rfl

/-- The flexible-date deserializer inverts the date-only serializer, up
to the loss of the time-of-day components. -/
theorem parseFlexibleDate_dateStr (d : FlexibleDate) :
    parseFlexibleDate (dateStr d) = some d.atMidnight := by
  rw [parseFlexibleDate, parseRFC3339_dateStr, parseDateOnly_dateStr]

/-- Decoding the optional date field recovers the midnight instants. -/
theorem optField_date_eval (es : List (Str × YVal)) (od : Option FlexibleDate)
    (h : lookupKV "date".toList es = od.map (fun d => YVal.scalar (dateStr d)))
    (hmid : ∀ d, od = some d → d.atMidnight = d) :
    optField "date".toList es (fun v => (asScalar v).bind parseFlexibleDate) =
      some od := by
  cases od with
  | none =>
    rw [optField, h]
    rfl
  | some d =>
    rw [optField, h]
    show ((asScalar (YVal.scalar (dateStr d))).bind parseFlexibleDate).map some =
      some (some d)
    rw [asScalar, Option.some_bind, parseFlexibleDate_dateStr, hmid d rfl]
    rfl

/-- Fixed-field entries are removed by the extension filter. -/
theorem filter_chunk (k : Str) (ov : Option YVal) (hk : elemStr k fixedNames = true) :
    (chunk k ov).filter (fun e => !elemStr e.1 fixedNames) = [] := by
  cases ov with
  | none => rfl
  | some v =>
    rw [chunk, List.filter_cons_of_neg (by simp [hk])]
    rfl

/-- The extension filter recovers the extension map. -/
theorem fmToEntries_filter (fm : AdrFrontmatter)
    (hc : ∀ e ∈ fm.custom, elemStr e.1 fixedNames = false) :
    (fmToEntries fm).filter (fun e => !elemStr e.1 fixedNames) = fm.custom := by
  rw [fmToEntries]
  simp only [List.filter_append]
  rw [filter_chunk _ _ (by decide), filter_chunk _ _ (by decide),
    filter_chunk _ _ (by decide), filter_chunk _ _ (by decide),
    filter_chunk _ _ (by decide), filter_chunk _ _ (by decide),
    filter_chunk _ _ (by decide), filter_chunk _ _ (by decide),
    filter_chunk _ _ (by decide), filter_chunk _ _ (by decide),
    filter_chunk _ _ (by decide)]
  simp only [List.nil_append]
  exact List.filter_eq_self.mpr (fun e he => by rw [hc e he]; rfl)

/-- Membership in an optional entry. -/
theorem mem_chunk {x : Str × YVal} {k : Str} {ov : Option YVal}
    (h : x ∈ chunk k ov) : ∃ v, ov = some v ∧ x = (k, v) := by
  cases ov with
  | none => cases h
  | some v => exact ⟨v, rfl, List.mem_singleton.mp h⟩

/-- Every emitted frontmatter value is canonical, provided the extension
values are. -/
theorem fmToEntries_canonical (fm : AdrFrontmatter)
    (hc : ∀ e ∈ fm.custom, YVal.canonical e.2) :
    ∀ x ∈ fmToEntries fm, YVal.canonical x.2 := by
  intro x hx
  rw [fmToEntries] at hx
  simp only [List.append_assoc, List.mem_append] at hx
  rcases hx with h | h | h | h | h | h | h | h | h | h | h | h
  · obtain ⟨v, hov, rfl⟩ := mem_chunk h
    obtain ⟨s, _, rfl⟩ := Option.map_eq_some'.mp hov
    exact trivial
  · obtain ⟨v, hov, rfl⟩ := mem_chunk h
    cases hov
    exact trivial
  · obtain ⟨v, hov, rfl⟩ := mem_chunk h
    cases hov
    exact trivial
  · obtain ⟨v, hov, rfl⟩ := mem_chunk h
    obtain ⟨s, _, rfl⟩ := Option.map_eq_some'.mp hov
    exact trivial
  · obtain ⟨v, hov, rfl⟩ := mem_chunk h
    rcases hif : fm.tags with _ | _
    · rw [hif, if_pos rfl] at hov
      cases hov
    · rw [hif, if_neg (by simp)] at hov
      cases hov
      exact trivial
  · obtain ⟨v, hov, rfl⟩ := mem_chunk h
    rcases hif : fm.authors with _ | _
    · rw [hif, if_pos rfl] at hov
      cases hov
    · rw [hif, if_neg (by simp)] at hov
      cases hov
      exact trivial
  · obtain ⟨v, hov, rfl⟩ := mem_chunk h
    rcases hif : fm.deciders with _ | _
    · rw [hif, if_pos rfl] at hov
      cases hov
    · rw [hif, if_neg (by simp)] at hov
      cases hov
      exact trivial
  · obtain ⟨v, hov, rfl⟩ := mem_chunk h
    rcases hif : fm.links with _ | ⟨l0, ls0⟩
    · rw [hif, if_pos rfl] at hov
      cases hov
    · rw [hif, if_neg (by simp)] at hov
      cases hov
      refine ⟨by simp, ?_⟩
      intro m hm
      obtain ⟨l, _, rfl⟩ := List.mem_map.mp hm
      simp
  · obtain ⟨v, hov, rfl⟩ := mem_chunk h
    obtain ⟨s, _, rfl⟩ := Option.map_eq_some'.mp hov
    exact trivial
  · obtain ⟨v, hov, rfl⟩ := mem_chunk h
    obtain ⟨s, _, rfl⟩ := Option.map_eq_some'.mp hov
    exact trivial
  · obtain ⟨v, hov, rfl⟩ := mem_chunk h
    obtain ⟨s, _, rfl⟩ := Option.map_eq_some'.mp hov
    exact trivial
  · exact hc x h

/-- The key of an optional entry. -/
theorem chunk_map_fst_sublist (k : Str) (ov : Option YVal) :
    List.Sublist ((chunk k ov).map Prod.fst) [k] := by
  cases ov with
  | none => exact List.nil_sublist _
  | some v => exact List.Sublist.refl _

/-- The emitted keys form a sublist of the fixed names followed by the
extension keys. -/
theorem fmToEntries_keys_sublist (fm : AdrFrontmatter) :
    List.Sublist ((fmToEntries fm).map Prod.fst)
      (fixedNames ++ fm.custom.map Prod.fst) := by
  rw [fmToEntries]
  simp only [List.map_append, List.append_assoc]
  exact (chunk_map_fst_sublist _ _).append ((chunk_map_fst_sublist _ _).append
    ((chunk_map_fst_sublist _ _).append ((chunk_map_fst_sublist _ _).append
    ((chunk_map_fst_sublist _ _).append ((chunk_map_fst_sublist _ _).append
    ((chunk_map_fst_sublist _ _).append ((chunk_map_fst_sublist _ _).append
    ((chunk_map_fst_sublist _ _).append ((chunk_map_fst_sublist _ _).append
    ((chunk_map_fst_sublist _ _).append (List.Sublist.refl _)))))))))))

/-- The emitted keys are duplicate-free, provided the extension keys
avoid the fixed names and are themselves duplicate-free. -/
theorem fmToEntries_keys_nodup (fm : AdrFrontmatter)
    (hc : ∀ e ∈ fm.custom, elemStr e.1 fixedNames = false)
    (hnd : (fm.custom.map Prod.fst).Nodup) :
    ((fmToEntries fm).map Prod.fst).Nodup := by
  refine (fmToEntries_keys_sublist fm).nodup
    (List.Nodup.append (by decide) hnd ?_)
  intro a ha hmem
  obtain ⟨e, he, rfl⟩ := List.mem_map.mp hmem
  have h2 := hc e he
  rw [(elemStr_true_iff e.1 fixedNames).mpr ha] at h2
  cases h2

/-- The emitted entry list is never empty: `title` is always present. -/
theorem fmToEntries_ne_nil (fm : AdrFrontmatter) : fmToEntries fm ≠ [] := by
  intro he
  rw [fmToEntries] at he
  simp [chunk] at he

/-- Decoding an explicit scalar. -/
theorem asScalar_scalar (s : Str) : asScalar (YVal.scalar s) = some s := rfl

/-- Deserializing the emitted frontmatter entries recovers the
frontmatter, provided extension keys avoid the fixed names and the date
carries no time of day. -/
theorem fromEntries_fmToEntries (fm : AdrFrontmatter)
    (hc : ∀ e ∈ fm.custom, elemStr e.1 fixedNames = false)
    (hdate : ∀ d, fm.date = some d → d.atMidnight = d) :
    fromEntries (fmToEntries fm) = some fm := by
  rw [fromEntries]
  simp only [optField_scalar_eval _ _ fm.id (lk_fm_id fm hc),
    lk_fm_title fm hc,
    dfltField_status_eval _ fm.status (lk_fm_status fm hc),
    optField_date_eval _ fm.date (lk_fm_date fm hc) hdate,
    dfltField_list_eval _ _ fm.tags (lk_fm_tags fm hc),
    dfltField_list_eval _ _ fm.authors (lk_fm_authors fm hc),
    dfltField_list_eval _ _ fm.deciders (lk_fm_deciders fm hc),
    dfltField_links_eval _ fm.links (lk_fm_links fm hc),
    optField_scalar_eval _ _ fm.format (lk_fm_format fm hc),
    optField_scalar_eval _ _ fm.supersedes (lk_fm_supersedes fm hc),
    optField_scalar_eval _ _ fm.superseded_by (lk_fm_ssb fm hc),
    asScalar_scalar, Option.some_bind, Option.map_some']
  rw [fmToEntries_filter fm hc]


/-! ## Lemmas: assembling the markdown round trip -/

/-- Dropping trailing whitespace is preserved by dropping leading
whitespace. -/
theorem rtrimStr_ltrimStr {u : Str} (h : rtrimStr u = u) :
    rtrimStr (ltrimStr u) = ltrimStr u := by
  have hrev : u.reverse.dropWhile Char.isWhitespace = u.reverse := by
    have := congrArg List.reverse h
    rwa [rtrimStr, List.reverse_reverse] at this
  have hsuf : List.IsSuffix (ltrimStr u) u := List.dropWhile_suffix _
  have hpre : List.IsPrefix (ltrimStr u).reverse u.reverse :=
    List.reverse_prefix.mpr hsuf
  rw [rtrimStr]
  cases hcase : (ltrimStr u).reverse with
  | nil =>
    rw [List.dropWhile_nil, List.reverse_nil, List.reverse_eq_nil_iff.mp hcase]
  | cons c r =>
    obtain ⟨t, ht⟩ := hpre
    rw [hcase] at ht
    rw [← ht, List.cons_append] at hrev
    rw [List.dropWhile_cons] at hrev ⊢
    by_cases hw : c.isWhitespace = true
    · rw [if_pos hw] at hrev
      have hlen := congrArg List.length hrev
      have := (List.dropWhile_suffix (l := r ++ t)
        (p := Char.isWhitespace)).sublist.length_le
      simp only [List.length_cons] at hlen
      omega
    · rw [if_neg hw, ← hcase, List.reverse_reverse]

/-- The two trims of a trim-fixed string are the identity. -/
theorem trim_fixed_parts {b : Str} (h : trimStr b = b) :
    ltrimStr b = b ∧ rtrimStr b = b := by
  rw [trimStr] at h
  have h2 := rtrimStr_ltrimStr (rtrimStr_idem b)
  rw [h] at h2
  constructor
  · have h3 : ltrimStr (ltrimStr (rtrimStr b)) = ltrimStr (rtrimStr b) :=
      dropWhile_idem _ _
    rw [h] at h3
    exact h3
  · exact h2

/-- Taking within the left part of an append. -/
theorem take_append_left {α : Type} : ∀ (Y Z : List α) (n : Nat), n ≤ Y.length →
    (Y ++ Z).take n = Y.take n
  | _, _, _, h => List.take_append_of_le_length h

/-- Dropping beyond the left part of an append. -/
theorem drop_len_append {α : Type} : ∀ (Y Z : List α) (n : Nat),
    (Y ++ Z).drop (Y.length + n) = Z.drop n
  | [], Z, n => by rw [List.nil_append, List.length_nil, Nat.zero_add]
  | a :: t, Z, n => by
    rw [List.cons_append, List.length_cons]
    rw [show t.length + 1 + n = (t.length + n) + 1 from by omega]
    rw [List.drop_succ_cons, drop_len_append t Z n]

/-- The opening delimiter check succeeds on three dashes. -/
theorem prefixOfB_dash3 (t : Str) :
    prefixOfB ['-', '-', '-'] ('-' :: '-' :: '-' :: t) = true := by
  rw [prefixOfB, if_pos rfl, prefixOfB, if_pos rfl, prefixOfB, if_pos rfl, prefixOfB]

/-- Dropping three leading elements. -/
theorem drop3 {α : Type} (a b c : α) (X : List α) :
    List.drop 3 (a :: b :: c :: X) = X := rfl

/-- Taking the interior up to the block's final newline. -/
theorem take_emit (Y Z : Str) (hY : Y ≠ []) :
    ('\n' :: (Y ++ Z)).take Y.length = '\n' :: Y.dropLast := by
  rw [show Y.length = (Y.length - 1) + 1 from by
    have := List.length_pos.mpr hY
    omega]
  rw [List.take_succ_cons, take_append_left _ _ _ (by omega), List.dropLast_eq_take]

/-- Dropping the interior and the closing pattern. -/
theorem drop_emit (Y Z : Str) : ('\n' :: (Y ++ Z)).drop (Y.length + 4) = Z.drop 3 := by
  rw [show Y.length + 4 = (Y.length + 3) + 1 from by omega]
  rw [List.drop_succ_cons, drop_len_append]

/-- Evaluation of the frontmatter parser on well-delimited input. -/
theorem parseFrontmatter_eval (content rest : Str) (pos : Nat) (fm : AdrFrontmatter)
    (htrim : trimStr content = '-' :: '-' :: '-' :: rest)
    (hidx : substrIdx rest ['\n', '-', '-', '-'] = some pos)
    (hres : (yamlFromStr (rest.take pos)).bind fromEntries = some fm) :
    Adr.parseFrontmatter content = .ok (fm, trimStr (rest.drop (pos + 4))) := by
  simp only [Adr.parseFrontmatter]
  rw [htrim, if_pos (prefixOfB_dash3 rest), drop3, hidx]
  simp only [hres]

/-- Parsing the serialized form of a frontmatter block and body recovers
both, for canonical entries and a trimmed body. -/
theorem parseFrontmatter_emit (e0 : Str × YVal) (es0 : List (Str × YVal))
    (fm : AdrFrontmatter) (body : Str)
    (hcan : ∀ x ∈ e0 :: es0, YVal.canonical x.2)
    (hnd : ((e0 :: es0).map Prod.fst).Nodup)
    (hfrom : fromEntries (e0 :: es0) = some fm)
    (hb1 : ltrimStr body = body) (hb2 : rtrimStr body = body) :
    Adr.parseFrontmatter ('-' :: '-' :: '-' :: '\n' :: yamlEmit (e0 :: es0)
      ++ '-' :: '-' :: '-' :: '\n' :: '\n' :: body) = .ok (fm, body) := by
  have hY : yamlEmit (e0 :: es0) ≠ [] := yamlEmit_ne_nil e0 es0
  have hyaml := yamlFromStr_emit e0 es0 hcan hnd
  by_cases hbody : body = []
  · subst hbody
    have htrim : trimStr ('-' :: '-' :: '-' :: '\n' :: yamlEmit (e0 :: es0)
        ++ '-' :: '-' :: '-' :: '\n' :: '\n' :: ([] : Str)) =
        '-' :: '-' :: '-' :: ('\n' :: (yamlEmit (e0 :: es0) ++ ['-', '-', '-'])) := by
      rw [trimStr]
      rw [show ('-' :: '-' :: '-' :: '\n' :: yamlEmit (e0 :: es0)
          ++ '-' :: '-' :: '-' :: '\n' :: '\n' :: ([] : Str)) =
          (('-' :: '-' :: '-' :: '\n' :: yamlEmit (e0 :: es0)) ++ ['-', '-', '-'])
            ++ ('\n' :: '\n' :: ([] : Str)) from by simp]
      rw [rtrimStr_append,
        if_pos (show rtrimStr ('\n' :: '\n' :: ([] : Str)) = [] from by decide)]
      rw [rtrimStr_append,
        if_neg (show ¬ rtrimStr ['-', '-', '-'] = [] from by decide)]
      rw [show rtrimStr ['-', '-', '-'] = ['-', '-', '-'] from by decide]
      simp only [List.cons_append]
      rw [ltrimStr_cons_not_ws (by decide)]
    have hidx := substrIdx_yamlEmit (e0 :: es0) []
    rw [nlD3] at hidx
    rw [parseFrontmatter_eval _ _ _ fm htrim hidx
      (by rw [take_emit _ _ hY, hyaml, Option.some_bind, hfrom])]
    rw [drop_emit]
    rw [show trimStr (List.drop 3 (['-', '-', '-'] : Str)) = [] from rfl]
  · have hB : rtrimStr ('\n' :: '\n' :: body) = ['\n', '\n'] ++ body := by
      rw [show ('\n' :: '\n' :: body) = ['\n', '\n'] ++ body from rfl,
        rtrimStr_append, hb2, if_neg hbody]
    have htrim : trimStr ('-' :: '-' :: '-' :: '\n' :: yamlEmit (e0 :: es0)
        ++ '-' :: '-' :: '-' :: '\n' :: '\n' :: body) =
        '-' :: '-' :: '-' :: ('\n' :: (yamlEmit (e0 :: es0)
          ++ '-' :: '-' :: '-' :: '\n' :: '\n' :: body)) := by
      rw [trimStr]
      rw [show ('-' :: '-' :: '-' :: '\n' :: yamlEmit (e0 :: es0)
          ++ '-' :: '-' :: '-' :: '\n' :: '\n' :: body) =
          (('-' :: '-' :: '-' :: '\n' :: yamlEmit (e0 :: es0)) ++ ['-', '-', '-'])
            ++ ('\n' :: '\n' :: body) from by simp]
      rw [rtrimStr_append, hB,
        if_neg (show ¬ (['\n', '\n'] ++ body) = [] from by simp)]
      simp only [List.cons_append, List.append_assoc, List.nil_append]
      rw [ltrimStr_cons_not_ws (by decide)]
    have hidx := substrIdx_yamlEmit (e0 :: es0) ('\n' :: '\n' :: body)
    rw [nlD3] at hidx
    have htrimB : trimStr ('\n' :: '\n' :: body) = body := by
      rw [trimStr, hB]
      show ltrimStr ('\n' :: '\n' :: body) = body
      rw [ltrimStr_cons_ws (by decide), ltrimStr_cons_ws (by decide), hb1]
    rw [parseFrontmatter_eval _ _ _ fm htrim hidx
      (by rw [take_emit _ _ hY, hyaml, Option.some_bind, hfrom])]
    rw [drop_emit, drop3, htrimB]


/-! ## C2: the serialize-parse round trip -/

/-- A record whose body carries trailing whitespace and whose date
carries a time of day; both are lost in a serialize-parse round trip. -/
def c2adr : Adr :=
  { id := "ADR-0001".toList, commit := "c1".toList,
    frontmatter :=
      { id := some "ADR-0001".toList, title := "T".toList, status := .proposed,
        date := some ⟨2025, 12, 15, 10, 30, 0⟩, tags := [], authors := [],
        deciders := [], links := [], format := none, supersedes := none,
        superseded_by := none, custom := [] },
    body := ['x', ' '] }

/-- A record the round trip reproduces exactly: trimmed body, midnight
date, extension keys off the fixed names. -/
def c2wAdr : Adr :=
  { id := "ADR-0002".toList, commit := "c2".toList,
    frontmatter :=
      { id := some "ADR-0002".toList, title := "Use Rust".toList,
        status := .accepted, date := some ⟨2025, 12, 15, 0, 0, 0⟩,
        tags := ["infra".toList, "lang".toList], authors := ["ann".toList],
        deciders := [], links := [⟨"supersedes".toList, "ADR-0001".toList⟩],
        format := some "madr".toList, supersedes := some "ADR-0001".toList,
        superseded_by := none,
        custom := [("owner".toList, .scalar "me".toList)] },
    body := ['B', 'o', 'd', 'y'] }

/-- C2: the serialize-parse round trip `from_markdown (to_markdown r)`
reproduces every frontmatter field and the body of `r`, provided the
extension keys avoid the fixed field names and are duplicate-free with
canonical values, the date carries no time of day, and the body is
trimmed.  Unconditionally the claim fails: the parser trims the body,
and a date round-trips through the `%Y-%m-%d` rendering, so trailing
body whitespace and any time-of-day component are lost. -/
theorem c2_roundtrip (adr : Adr)
    (hc : ∀ e ∈ adr.frontmatter.custom,
      elemStr e.1 fixedNames = false ∧ YVal.canonical e.2)
    (hnd : (adr.frontmatter.custom.map Prod.fst).Nodup)
    (hdate : ∀ d, adr.frontmatter.date = some d → d.atMidnight = d)
    (hb : trimStr adr.body = adr.body) :
    Adr.fromMarkdown adr.id adr.commit (Adr.toMarkdown adr) = .ok adr := by
  obtain ⟨hb1, hb2⟩ := trim_fixed_parts hb
  obtain ⟨e0, es0, hE⟩ : ∃ e es, fmToEntries adr.frontmatter = e :: es := by
    cases hE : fmToEntries adr.frontmatter with
    | nil => exact absurd hE (fmToEntries_ne_nil _)
    | cons e es => exact ⟨e, es, rfl⟩
  have hcan := fmToEntries_canonical adr.frontmatter (fun e he => (hc e he).2)
  have hnd2 := fmToEntries_keys_nodup adr.frontmatter (fun e he => (hc e he).1) hnd
  have hfrom := fromEntries_fmToEntries adr.frontmatter (fun e he => (hc e he).1) hdate
  rw [hE] at hcan hnd2 hfrom
  rw [Adr.fromMarkdown, Adr.toMarkdown, hE]
  rw [parseFrontmatter_emit e0 es0 adr.frontmatter adr.body hcan hnd2 hfrom hb1 hb2]
  rfl

/-- C2 counterexample: on a record with an untrimmed body and a
non-midnight date, the round trip returns a record whose body is trimmed
and whose date is collapsed to midnight, hence not the original. -/
theorem c2_counterexample :
    Adr.fromMarkdown c2adr.id c2adr.commit (Adr.toMarkdown c2adr) =
      .ok { c2adr with
        frontmatter := { c2adr.frontmatter with
          date := some ⟨2025, 12, 15, 0, 0, 0⟩ },
        body := ['x'] } ∧
    Adr.fromMarkdown c2adr.id c2adr.commit (Adr.toMarkdown c2adr) ≠
      .ok c2adr := by
  constructor
  · decide
  · decide

/-- C2 witness: the round-trip theorem applied to a concrete record with
every optional field populated. -/
theorem c2_witness :
    Adr.fromMarkdown c2wAdr.id c2wAdr.commit (Adr.toMarkdown c2wAdr) =
      .ok c2wAdr :=
  c2_roundtrip c2wAdr (by decide) (by decide)
    (fun d hd => by
      injection hd with h
      rw [← h]
      rfl)
    (by decide)

end GitAdr
